import Mathlib

/-
Verification of the COHDA planning core of the `isaac` multi-agent
optimization engine.

The development shallowly embeds the immutable negotiation data structures
(`SystemConfig`, `Candidate` from `planning.py`), the planner's decision
step (`Planner._decide`, `Planner._get_new_os`), the observer's solution
aggregation (`ObserverAgent._get_solution` from `observer/observer.py`) and
the topology construction (`TopologyManager` from
`controller/core/management.py`).

Conventions of the embedding:
* Agent names and addresses are `String`s.  Python compares strings by
  code points, lexicographically; this order is embedded explicitly as
  `strLtB` (the built-in `String` order of this Lean version does not
  reduce in the kernel).
* Python `dict`s are embedded as association lists (`List (key × value)`)
  with lookup semantics, or, for the topology, as key list plus function.
* NumPy float matrices are embedded as `List (List Int)`; the claims under
  study depend only on the ordered-field structure of the entries, never
  on rounding, so an exact numeric type is used.
* Fallible operations (Python `KeyError`, `IndexError`, the unbound local
  of `SystemConfig.merge`, failed `assert`s) are embedded with `Option`;
  `none` is "the Python code raises".
* The Mersenne-Twister stream behind `random.Random(seed).choice` is
  abstracted as a universally quantified list of drawn pairs.
-/

namespace Isaac

/-- Python character comparison: by unicode code point (`Char.toNat`). -/
def charLtB (a b : Char) : Bool := a.toNat < b.toNat

/-- Sequencing of a fallible function over a list (`List.mapM` for
`Option`, written recursively): `none` as soon as one element fails. -/
def mapOption {α β : Type} (f : α → Option β) : List α → Option (List β)
  | [] => some []
  | x :: xs =>
    match f x, mapOption f xs with
    | some y, some ys => some (y :: ys)
    | _, _ => none

/-- Lexicographic strict order on character lists, mirroring Python's
string comparison. -/
def listCharLtB : List Char → List Char → Bool
  | [], [] => false
  | [], _ :: _ => true
  | _ :: _, [] => false
  | a :: as, b :: bs =>
    if charLtB a b then true
    else if charLtB b a then false
    else listCharLtB as bs

/-- Python `a < b` on strings. -/
def strLtB (a b : String) : Bool := listCharLtB a.toList b.toList

/-- Python `a <= b` on strings (total order, so `a <= b ↔ ¬ b < a`). -/
def strLeB (a b : String) : Bool := !(strLtB b a)

/-- Python `min(a, b)` on strings: returns `a` when the two are equal. -/
def minString (a b : String) : String := if strLtB b a then b else a

/-- Row of a `SystemConfig` for one agent: the namedtuple
`SystemConfig.Data = (os, sid, count)` of `planning.py`. -/
structure SCData where
  os : List Int
  sid : Int
  count : Int
deriving Repr, DecidableEq

/-- Row of a `Candidate` for one agent: the namedtuple
`Candidate.Data = (os, sid)` of `planning.py`. -/
structure CData where
  os : List Int
  sid : Int
deriving Repr, DecidableEq

/-- Immutable system configuration (`planning.SystemConfig`): `idx` maps
agent names to row indices, `cs` is the cluster-schedule matrix, `sids`
the schedule ids and `cnt` the per-agent selection counters. -/
structure SystemConfig where
  idx : List (String × Nat)
  cs : List (List Int)
  sids : List Int
  cnt : List Int
deriving Repr, DecidableEq

/-- Candidate solution (`planning.Candidate`): like `SystemConfig` but
with the authoring `agent` and the scalar performance `perf` instead of
the counters. -/
structure Candidate where
  agent : String
  idx : List (String × Nat)
  cs : List (List Int)
  sids : List Int
  perf : Int
deriving Repr, DecidableEq

/-- Key set of an index map (`set(some_dict)` in Python iterates the
keys). -/
def keysOf (l : List (String × Nat)) : List String := l.map Prod.fst

/-- Python dict equality for the index maps: the two association lists
agree as finite maps. -/
def idxEquiv (p q : List (String × Nat)) : Bool :=
  (keysOf p).all (fun k => q.lookup k == p.lookup k) &&
  (keysOf q).all (fun k => p.lookup k == q.lookup k)

/-- Embedding of `SystemConfig.__eq__` for integer-valued (hence
NaN-free) schedules: dict equality on `idx`, tuple equality on `sids`
and `cnt`, `np.array_equal` on `cs`.  This equality is reflexive, which
float `==` is not at NaN; see `SystemConfigF.beq` below for the
float-faithful version. -/
def SystemConfig.beq (x y : SystemConfig) : Bool :=
  idxEquiv x.idx y.idx && x.sids == y.sids && x.cnt == y.cnt && x.cs == y.cs

/-- Embedding of `Candidate.__eq__` for integer-valued (hence NaN-free)
schedules and performances: equality of authors, dict equality on `idx`,
tuple equality on `sids`, equality of `perf`, `np.array_equal` on `cs`.
Reflexive, which float `==` is not at NaN; see `CandidateF.beq` below
for the float-faithful version. -/
def Candidate.beq (x y : Candidate) : Bool :=
  x.agent == y.agent && idxEquiv x.idx y.idx && x.sids == y.sids &&
    x.perf == y.perf && x.cs == y.cs

/-- `SystemConfig.data(agent)`: look the agent up in `idx` and read the
row; `none` embeds Python's `KeyError` / `IndexError`. -/
def SystemConfig.data (sc : SystemConfig) (agent : String) : Option SCData :=
  match sc.idx.lookup agent with
  | none => none
  | some i =>
    match sc.cs[i]?, sc.sids[i]?, sc.cnt[i]? with
    | some os, some sid, some count => some ⟨os, sid, count⟩
    | _, _, _ => none

/-- `Candidate.data(agent)`: as for `SystemConfig.data`, without the
counter. -/
def Candidate.data (c : Candidate) (agent : String) : Option CData :=
  match c.idx.lookup agent with
  | none => none
  | some i =>
    match c.cs[i]?, c.sids[i]? with
    | some os, some sid => some ⟨os, sid⟩
    | _, _ => none

/-- `SystemConfig.update(agent, os, sid)`: clone with row `agent` set to
`os`, its sid replaced and its counter incremented by one.  The length
guard embeds NumPy's shape check on the row assignment `cs[i] = os`. -/
def SystemConfig.update (sc : SystemConfig) (agent : String) (os : List Int)
    (sid : Int) : Option SystemConfig :=
  match sc.idx.lookup agent with
  | none => none
  | some i =>
    match sc.cs[i]?, sc.sids[i]?, sc.cnt[i]? with
    | some row, some _, some c =>
      if os.length = row.length then
        some ⟨sc.idx, sc.cs.set i os, sc.sids.set i sid, sc.cnt.set i (c + 1)⟩
      else none
    | _, _, _ => none

/-- `Candidate.update(agent, os, sid, perf_func)`: clone with the new row
and the performance recomputed by `perf_func` on the updated matrix. -/
def Candidate.update (c : Candidate) (agent : String) (os : List Int)
    (sid : Int) (perf_func : List (List Int) → Int) : Option Candidate :=
  match c.idx.lookup agent with
  | none => none
  | some i =>
    match c.cs[i]?, c.sids[i]? with
    | some row, some _ =>
      if os.length = row.length then
        some ⟨agent, c.idx, c.cs.set i os, c.sids.set i sid,
              perf_func (c.cs.set i os)⟩
      else none
    | _, _ => none

/-- Python `sorted(keyset_i | keyset_j)`: the union of the key sets as a
duplicate-free list sorted lexicographically by agent name. -/
def sortedUnion (ka kb : List String) : List String :=
  List.insertionSort (fun a b => strLeB a b = true) (ka ++ kb).dedup

/-- Index map `{a: i for i, a in enumerate(names)}` built by the merge
functions. -/
def enumIdx (names : List String) : List (String × Nat) :=
  names.enum.map (fun p => (p.2, p.1))

/-- Loop body of `SystemConfig.merge` for one agent of the sorted union:
returns the chosen row together with the flag telling whether the j-side
data overwrote the i-side data (`modified`).  `none` embeds the
`IndexError`s of the `data` calls and the unbound local `sid` that Python
would hit for a j-only agent whose counter is not above the initial `-1`. -/
def SystemConfig.mergeRow (si sj : SystemConfig) (a : String) :
    Option (Bool × SCData) :=
  if (si.idx.lookup a).isSome then
    match si.data a with
    | none => none
    | some di =>
      if (sj.idx.lookup a).isSome then
        match sj.data a with
        | none => none
        | some dj =>
          if dj.count > di.count then some (true, dj) else some (false, di)
      else some (false, di)
  else
    match sj.data a with
    | none => none
    | some dj => if dj.count > -1 then some (true, dj) else none

/-- All rows built by the merge loop, in sorted agent order. -/
def SystemConfig.mergeRows (si sj : SystemConfig) :
    Option (List (Bool × SCData)) :=
  mapOption (SystemConfig.mergeRow si sj)
    (sortedUnion (keysOf si.idx) (keysOf sj.idx))

/-- Whether `SystemConfig.merge` took the `modified` path, i.e. whether
the returned object is a fresh instance rather than `sysconf_i` itself. -/
def SystemConfig.mergeModified (si sj : SystemConfig) : Option Bool :=
  (SystemConfig.mergeRows si sj).map (·.any Prod.fst)

/-- `SystemConfig.merge(sysconf_i, sysconf_j)`: merge row-wise over the
sorted union of the key sets, preferring the j-side row exactly when its
counter is strictly larger; if nothing was overwritten the original
`sysconf_i` is returned. -/
def SystemConfig.merge (si sj : SystemConfig) : Option SystemConfig :=
  match SystemConfig.mergeRows si sj with
  | none => none
  | some rows =>
    if rows.any Prod.fst then
      let names := sortedUnion (keysOf si.idx) (keysOf sj.idx)
      some ⟨enumIdx names, rows.map (fun r => r.2.os),
            rows.map (fun r => r.2.sid), rows.map (fun r => r.2.count)⟩
    else some si

/-- Python set inclusion `ka <= kb` for key sets represented as lists. -/
def keysetSubset (ka kb : List String) : Bool := ka.all (fun a => kb.contains a)

/-- Python strict set inclusion `ka < kb`. -/
def keysetSSubset (ka kb : List String) : Bool :=
  keysetSubset ka kb && !(keysetSubset kb ka)

/-- Python set equality `ka == kb`. -/
def keysetEq (ka kb : List String) : Bool :=
  keysetSubset ka kb && keysetSubset kb ka

/-- `Candidate.merge(candidate_i, candidate_j, agent, perf_func)`: choose
`candidate_j` when its key set strictly contains `candidate_i`'s, compare
performances (author name as tie-break) on equal key sets, build a fresh
candidate authored by `agent` over the union when `candidate_j` brings new
agents, and keep `candidate_i` otherwise. -/
def Candidate.merge (ci cj : Candidate) (agent : String)
    (perf_func : List (List Int) → Int) : Option Candidate :=
  let ki := keysOf ci.idx
  let kj := keysOf cj.idx
  if keysetSSubset ki kj then some cj
  else if keysetEq ki kj then
    if cj.perf > ci.perf then some cj
    else if cj.perf == ci.perf then
      if strLtB cj.agent ci.agent then some cj else some ci
    else some ci
  else if !(keysetSubset kj ki) then
    match mapOption
        (fun a => if ki.contains a then ci.data a else cj.data a)
        (sortedUnion ki kj) with
    | none => none
    | some rows =>
      let cs := rows.map (fun d => d.os)
      some ⟨agent, enumIdx (sortedUnion ki kj), cs,
            rows.map (fun d => d.sid), perf_func cs⟩
  else some ci

/-- Whether `Candidate.merge` returns the original `candidate_i` instance
(the default `candidate = candidate_i` that no branch replaced). -/
def Candidate.mergeKept (ci cj : Candidate) : Bool :=
  let ki := keysOf ci.idx
  let kj := keysOf cj.idx
  if keysetSSubset ki kj then false
  else if keysetEq ki kj then
    if cj.perf > ci.perf then false
    else if cj.perf == ci.perf then !(strLtB cj.agent ci.agent)
    else true
  else if !(keysetSubset kj ki) then false
  else true

/-! #### The merges over IEEE floats

The cluster-schedule entries and the candidate performance are IEEE
doubles in the source (`np.array` of floats, `perf_func` results).  The
integer-valued embedding above identifies a float with its numeric
value, which is exact for NaN-free data; for the identity assertions at
the end of the two merge functions the NaN case matters, because in
Python/NumPy `nan == x`, `nan < x` and `nan > x` are all `False` — float
`==` and `np.array_equal` are not reflexive at NaN.  The merges are
therefore repeated here over a scalar type with an explicit NaN, with
the final `assert (result == arg_i) == (result is arg_i)` embedded as a
guard whose failure (Python's `AssertionError`) is `none`. -/

/-- An IEEE double as held in a cluster schedule or performance field: a
numeric value (abstracted as an integer, exactly as in the rest of the
development) or NaN. -/
inductive PyFloat where
  | val (q : Int)
  | nan
deriving Repr, DecidableEq

/-- Python float `==`: NaN compares unequal to everything, itself
included. -/
def pyEqB : PyFloat → PyFloat → Bool
  | .val a, .val b => a == b
  | _, _ => false

/-- Python float `>`: every comparison against NaN is `False`. -/
def pyGtB : PyFloat → PyFloat → Bool
  | .val a, .val b => b < a
  | _, _ => false

/-- Whether the float is NaN. -/
def PyFloat.isNan : PyFloat → Bool
  | .nan => true
  | .val _ => false

/-- Elementwise float `==` of two schedule rows of equal shape. -/
def rowEqB (r s : List PyFloat) : Bool :=
  r.length == s.length && (List.zip r s).all (fun p => pyEqB p.1 p.2)

/-- `np.array_equal`: equal shapes and elementwise `==`. -/
def array_equal (a b : List (List PyFloat)) : Bool :=
  a.length == b.length && (List.zip a b).all (fun p => rowEqB p.1 p.2)

/-- No entry of the matrix is NaN. -/
def nanFree (m : List (List PyFloat)) : Bool :=
  m.all (fun r => r.all (fun x => ! x.isNan))

/-- `planning.SystemConfig` with its cluster schedule kept as floats. -/
structure SystemConfigF where
  idx : List (String × Nat)
  cs : List (List PyFloat)
  sids : List Int
  cnt : List Int
deriving Repr, DecidableEq

/-- `planning.Candidate` with float schedule and float performance. -/
structure CandidateF where
  agent : String
  idx : List (String × Nat)
  cs : List (List PyFloat)
  sids : List Int
  perf : PyFloat
deriving Repr, DecidableEq

/-- `SystemConfig.Data` over floats. -/
structure SCFData where
  os : List PyFloat
  sid : Int
  count : Int
deriving Repr, DecidableEq

/-- `Candidate.Data` over floats. -/
structure CFData where
  os : List PyFloat
  sid : Int
deriving Repr, DecidableEq

/-- `SystemConfig.__eq__` over floats: dict equality on `idx`, tuple
equality on `sids` and `cnt`, `np.array_equal` on `cs`. -/
def SystemConfigF.beq (x y : SystemConfigF) : Bool :=
  idxEquiv x.idx y.idx && x.sids == y.sids && x.cnt == y.cnt &&
    array_equal x.cs y.cs

/-- `Candidate.__eq__` over floats: float `==` on `perf`,
`np.array_equal` on `cs`, the rest as for `SystemConfig`. -/
def CandidateF.beq (x y : CandidateF) : Bool :=
  x.agent == y.agent && idxEquiv x.idx y.idx && x.sids == y.sids &&
    pyEqB x.perf y.perf && array_equal x.cs y.cs

/-- `SystemConfig.data(agent)` over floats. -/
def SystemConfigF.data (sc : SystemConfigF) (agent : String) :
    Option SCFData :=
  match sc.idx.lookup agent with
  | none => none
  | some i =>
    match sc.cs[i]?, sc.sids[i]?, sc.cnt[i]? with
    | some os, some sid, some count => some ⟨os, sid, count⟩
    | _, _, _ => none

/-- `Candidate.data(agent)` over floats. -/
def CandidateF.data (c : CandidateF) (agent : String) : Option CFData :=
  match c.idx.lookup agent with
  | none => none
  | some i =>
    match c.cs[i]?, c.sids[i]? with
    | some os, some sid => some ⟨os, sid⟩
    | _, _ => none

/-- Loop body of `SystemConfig.merge` over floats; the counters stay
integral, so the overwrite decision is unchanged. -/
def SystemConfigF.mergeRow (si sj : SystemConfigF) (a : String) :
    Option (Bool × SCFData) :=
  if (si.idx.lookup a).isSome then
    match si.data a with
    | none => none
    | some di =>
      if (sj.idx.lookup a).isSome then
        match sj.data a with
        | none => none
        | some dj =>
          if dj.count > di.count then some (true, dj) else some (false, di)
      else some (false, di)
  else
    match sj.data a with
    | none => none
    | some dj => if dj.count > -1 then some (true, dj) else none

/-- All merge rows over floats, in sorted agent order. -/
def SystemConfigF.mergeRows (si sj : SystemConfigF) :
    Option (List (Bool × SCFData)) :=
  mapOption (SystemConfigF.mergeRow si sj)
    (sortedUnion (keysOf si.idx) (keysOf sj.idx))

/-- Whether the float merge took the `modified` path, i.e. whether the
value it returns is a fresh instance rather than `sysconf_i` itself. -/
def SystemConfigF.mergeModified (si sj : SystemConfigF) : Option Bool :=
  (SystemConfigF.mergeRows si sj).map (·.any Prod.fst)

/-- The float merge result just before the final assertion: a fresh
instance when some row was overwritten, the original `sysconf_i`
otherwise. -/
def SystemConfigF.mergeCore (si sj : SystemConfigF) : Option SystemConfigF :=
  match SystemConfigF.mergeRows si sj with
  | none => none
  | some rows =>
    if rows.any Prod.fst then
      let names := sortedUnion (keysOf si.idx) (keysOf sj.idx)
      some ⟨enumIdx names, rows.map (fun r => r.2.os),
            rows.map (fun r => r.2.sid), rows.map (fun r => r.2.count)⟩
    else some si

/-- `SystemConfig.merge` over floats including its final
`assert (sysconf == sysconf_i) == (sysconf is sysconf_i)`: the result is
the very instance `sysconf_i` exactly on the unmodified path, so the
asserted condition is `beq result sysconf_i == !modified`; `none` for
the `AssertionError` when it is violated. -/
def SystemConfigF.merge (si sj : SystemConfigF) : Option SystemConfigF :=
  match SystemConfigF.mergeCore si sj, SystemConfigF.mergeModified si sj with
  | some z, some m =>
    if (SystemConfigF.beq z si) == (! m) then some z else none
  | _, _ => none

/-- Whether `Candidate.merge` over floats keeps the default
`candidate = candidate_i`, i.e. returns the original instance: the
performance comparisons follow Python float semantics, so with a NaN
performance both `perf > perf` and `perf == perf` are `False` and the
default survives. -/
def CandidateF.mergeKept (ci cj : CandidateF) : Bool :=
  let ki := keysOf ci.idx
  let kj := keysOf cj.idx
  if keysetSSubset ki kj then false
  else if keysetEq ki kj then
    if pyGtB cj.perf ci.perf then false
    else if pyEqB cj.perf ci.perf then !(strLtB cj.agent ci.agent)
    else true
  else if !(keysetSubset kj ki) then false
  else true

/-- `Candidate.merge` over floats, up to (not including) the final
assertion: the same four branches as the integer embedding, with the
performance comparisons in Python float semantics. -/
def CandidateF.mergeCore (ci cj : CandidateF) (agent : String)
    (perf_func : List (List PyFloat) → PyFloat) : Option CandidateF :=
  let ki := keysOf ci.idx
  let kj := keysOf cj.idx
  if keysetSSubset ki kj then some cj
  else if keysetEq ki kj then
    if pyGtB cj.perf ci.perf then some cj
    else if pyEqB cj.perf ci.perf then
      if strLtB cj.agent ci.agent then some cj else some ci
    else some ci
  else if !(keysetSubset kj ki) then
    match mapOption
        (fun a => if ki.contains a then ci.data a else cj.data a)
        (sortedUnion ki kj) with
    | none => none
    | some rows =>
      let cs := rows.map (fun d => d.os)
      some ⟨agent, enumIdx (sortedUnion ki kj), cs,
            rows.map (fun d => d.sid), perf_func cs⟩
  else some ci

/-- `Candidate.merge` over floats including its final
`assert (candidate == candidate_i) == (candidate is candidate_i)`, with
the identity read as the kept default; `none` embeds the
`AssertionError`. -/
def CandidateF.merge (ci cj : CandidateF) (agent : String)
    (perf_func : List (List PyFloat) → PyFloat) : Option CandidateF :=
  match CandidateF.mergeCore ci cj agent perf_func with
  | none => none
  | some r =>
    if (CandidateF.beq r ci) == CandidateF.mergeKept ci cj then some r
    else none

/-- `WorkingMemory.objective_function`: the negative weighted sum of the
absolute deviations of the column sums of the cluster schedule from the
target schedule. -/
def objective_function (ts weights : List Int) (cs : List (List Int)) : Int :=
  let sum_cs : List Int :=
    match cs with
    | [] => []
    | r :: rs => rs.foldl (fun a b => a.zipWith (· + ·) b) r
  let diff := ts.zipWith (fun t s => |t - s|) sum_cs
  let w_diff := diff.zipWith (· * ·) weights
  Neg.neg w_diff.sum

/-- `ObserverAgent._get_solution(candidates)`: with the `_terminated` flag
set, assert all buffered candidates equal and return the first one;
otherwise reduce the buffered candidates left-to-right with
`Candidate.merge(·, ·, "controller", perf_fn)` where `perf_fn` is the
objective function of a dummy working memory holding the session's target
schedule and weights. -/
def get_solution (terminated : Bool) (ts weights : List Int)
    (candidates : List Candidate) : Option Candidate :=
  if terminated then
    match candidates with
    | [] => none
    | c :: rest =>
      if rest.all (fun x => Candidate.beq x c) then some c else none
  else
    match candidates with
    | [] => none
    | c :: rest =>
      rest.foldlM
        (fun a b => Candidate.merge a b "controller" (objective_function ts weights)) c

/-- State threaded through the scan of `Planner._get_new_os`: the best
performance seen so far and the best `(os, sid)` pair found, `none` while
no schedule beat the given threshold. -/
structure NewOsState where
  best_perf : Int
  new_os_sid : Option (List Int × Int)
deriving Repr, DecidableEq

/-- `Planner._get_new_os(current_best_perf, sysconf, name)`: scan the
possible schedules `ps` in list order; for each, hypothetically update the
system configuration and evaluate the objective; keep the last strictly
improving `(os, sid)`.  Returns `none` on a raising update, otherwise the
final `(os, sid)` option (`none` inside meaning "no better schedule"). -/
def get_new_os (f : List (List Int) → Int) (ps : List (Int × Int × List Int))
    (current_best_perf : Int) (sysconf : SystemConfig) (name : String) :
    Option (Option (List Int × Int)) := do
  let st ← ps.foldlM
    (fun (st : NewOsState) p => do
      let (sid, _, op_sched) := p
      let new_s ← sysconf.update name op_sched sid
      let new_perf := f new_s.cs
      if new_perf > st.best_perf then
        pure ⟨new_perf, some (op_sched, sid)⟩
      else
        pure st)
    ⟨current_best_perf, none⟩
  pure st.new_os_sid

/-- Final step of `Planner._decide`: update the system configuration's
own row exactly when the decided schedule id `best_sid` differs from
`current_sid`, the sid the input configuration records for the agent. -/
def Planner.decideFinal (sysconf : SystemConfig) (current_sid : Int)
    (name : String) (best_os : List Int) (best_sid : Int)
    (candidate' : Candidate) : Option (SystemConfig × Candidate) :=
  if current_sid ≠ best_sid then
    match sysconf.update name best_os best_sid with
    | none => none
    | some sysconf2 => some (sysconf2, candidate')
  else some (sysconf, candidate')

/-- `Planner._decide(sysconf, candidate)`: look for a strictly better own
schedule; if the scan finds one, build the corresponding fresh candidate
and adopt it when it beats the current candidate; finally
(`Planner.decideFinal`) update the system configuration's own row exactly
when the decided schedule id differs from the one currently recorded
there.  The placeholder `0` stands for the `perf=None` Python passes to
the `Candidate` constructor: it is dead, since `Candidate.update`
recomputes the performance. -/
def Planner.decide (f : List (List Int) → Int) (ps : List (Int × Int × List Int))
    (name : String) (sysconf : SystemConfig) (candidate : Candidate) :
    Option (SystemConfig × Candidate) :=
  match sysconf.data name with
  | none => none
  | some dsc =>
  match candidate.data name with
  | none => none
  | some current_best =>
  match get_new_os f ps candidate.perf sysconf name with
  | none => none
  | some new_os_sid =>
  match new_os_sid with
  | none =>
    Planner.decideFinal sysconf dsc.sid name current_best.os current_best.sid
      candidate
  | some (new_os, new_sid) =>
    match sysconf.update name new_os new_sid with
    | none => none
    | some new_s =>
    match Candidate.update ⟨name, new_s.idx, new_s.cs, new_s.sids, 0⟩
        name new_os new_sid f with
    | none => none
    | some new_candidate =>
      if new_candidate.perf > candidate.perf then
        Planner.decideFinal sysconf dsc.sid name new_os new_sid new_candidate
      else
        Planner.decideFinal sysconf dsc.sid name current_best.os
          current_best.sid candidate

/-- Loop body of `TopologyManager._build_ring` for the agent at position
`i` of the sorted agent list: add the addresses of the left and right ring
neighbor (indices taken modulo `n_agents`, with Python's nonnegative `%`)
to the agent's neighbor set. -/
def buildRingStep (addr : String → String) (agent_list : List String)
    (n_agents : Nat) (t : String → List String) (p : Nat × String) :
    String → List String :=
  let i := p.1
  let agent := p.2
  let agent_left := agent_list.getD ((((i : Int) - 1) % (n_agents : Int)).toNat) agent
  let agent_right := agent_list.getD ((((i : Int) + 1) % (n_agents : Int)).toNat) agent
  Function.update t agent
    (List.insert (addr agent_right) (List.insert (addr agent_left) (t agent)))

/-- `TopologyManager._build_ring(agent_list, n_agents)`: every agent is
linked to its two neighbors in the address-sorted ring. -/
def build_ring (addr : String → String) (agent_list : List String)
    (n_agents : Nat) (t : String → List String) : String → List String :=
  agent_list.enum.foldl (buildRingStep addr agent_list n_agents) t

/-- `TopologyManager._add_random_topology`: for every drawn pair of agents
(the PRNG stream is abstracted as the list `choices` of drawn pairs),
skip it if both picks are the same agent, otherwise add the symmetric
connection. -/
def add_random_topology (addr : String → String)
    (choices : List (String × String)) (t : String → List String) :
    String → List String :=
  choices.foldl
    (fun t p =>
      if p.1 = p.2 then t
      else
        let t1 := Function.update t p.1 (List.insert (addr p.2) (t p.1))
        Function.update t1 p.2 (List.insert (addr p.1) (t1 p.2)))
    t

/-- `TopologyManager.make_topology(agents)`: start from empty neighbor
sets; a single agent keeps an empty set; otherwise build the ring over the
agents sorted by address and add the random extra connections.  The dict
`agents` (proxy to address) is embedded as the key list `proxies` plus the
map `addr`. -/
def make_topology (proxies : List String) (addr : String → String)
    (choices : List (String × String)) : String → List String :=
  let n_agents := proxies.length
  let agent_list :=
    List.insertionSort (fun a b => strLeB (addr a) (addr b) = true) proxies
  let t0 : String → List String := fun _ => []
  if n_agents = 1 then t0
  else add_random_topology addr choices (build_ring addr agent_list n_agents t0)

/-- Canonicalization of one directed connection in
`TopologyManager.topology_as_list`: the pair is oriented by comparing the
two ADDRESSES, then the addresses are replaced by the agent names. -/
def canonPair (names : String → String) (addr_a addr_b : String) :
    String × String :=
  if strLtB addr_a addr_b then (names addr_a, names addr_b)
  else (names addr_b, names addr_a)

/-- Python tuple comparison `p <= q` for string pairs. -/
def pairLeB (p q : String × String) : Bool :=
  strLtB p.1 q.1 || (p.1 == q.1 && strLeB p.2 q.2)

/-- `TopologyManager.topology_as_list(agent_names)`: collect the
canonicalized connections of all agents into a set and return it sorted.
Python's `sorted(connections)` over the set is embedded as
deduplication followed by sorting, which is independent of the set's
iteration order. -/
def topology_as_list (proxies : List String) (addr : String → String)
    (t : String → List String) (names : String → String) :
    List (String × String) :=
  let connections : List (String × String) :=
    proxies.foldl
      (fun acc p =>
        (t p).foldl (fun acc2 other => canonPair names (addr p) other :: acc2) acc)
      []
  List.insertionSort (fun a b => pairLeB a b = true) connections.dedup

/-! ### Generic lemmas about the list-level building blocks -/

theorem mapOption_length {α β : Type} {f : α → Option β} :
    ∀ {l : List α} {ys : List β}, mapOption f l = some ys → ys.length = l.length
  | [], _, h => by
    simp only [mapOption] at h
    cases h
    rfl
  | x :: xs, ys, h => by
    simp only [mapOption] at h
    cases hx : f x with
    | none => rw [hx] at h; exact absurd h (by simp)
    | some y =>
      cases hxs : mapOption f xs with
      | none => rw [hx, hxs] at h; exact absurd h (by simp)
      | some zs =>
        rw [hx, hxs] at h
        cases h
        simp [mapOption_length hxs]

theorem mapOption_getElem? {α β : Type} {f : α → Option β} :
    ∀ {l : List α} {ys : List β}, mapOption f l = some ys →
      ∀ {k : Nat} {x : α}, l[k]? = some x → ∃ y, ys[k]? = some y ∧ f x = some y
  | [], _, _, k, x, hk => by simp at hk
  | x' :: xs, ys, h, k, x, hk => by
    simp only [mapOption] at h
    cases hx : f x' with
    | none => rw [hx] at h; exact absurd h (by simp)
    | some y =>
      cases hxs : mapOption f xs with
      | none => rw [hx, hxs] at h; exact absurd h (by simp)
      | some zs =>
        rw [hx, hxs] at h
        cases h
        cases k with
        | zero =>
          simp only [List.getElem?_cons_zero, Option.some.injEq] at hk
          exact ⟨y, by simp, hk ▸ hx⟩
        | succ k =>
          simp only [List.getElem?_cons_succ] at hk ⊢
          exact mapOption_getElem? hxs hk

theorem mapOption_getElem?_rev {α β : Type} {f : α → Option β} :
    ∀ {l : List α} {ys : List β}, mapOption f l = some ys →
      ∀ {k : Nat} {y : β}, ys[k]? = some y → ∃ x, l[k]? = some x ∧ f x = some y
  | [], ys, h, k, y, hk => by
    simp only [mapOption] at h
    cases h
    simp at hk
  | x' :: xs, ys, h, k, y, hk => by
    simp only [mapOption] at h
    cases hx : f x' with
    | none => rw [hx] at h; exact absurd h (by simp)
    | some y' =>
      cases hxs : mapOption f xs with
      | none => rw [hx, hxs] at h; exact absurd h (by simp)
      | some zs =>
        rw [hx, hxs] at h
        cases h
        cases k with
        | zero =>
          simp only [List.getElem?_cons_zero, Option.some.injEq] at hk
          exact ⟨x', by simp, hk ▸ hx⟩
        | succ k =>
          simp only [List.getElem?_cons_succ] at hk ⊢
          exact mapOption_getElem?_rev hxs hk

theorem lookup_isSome_iff {β : Type} :
    ∀ {l : List (String × β)} {a : String},
      (l.lookup a).isSome = true ↔ a ∈ l.map Prod.fst
  | [], a => by simp [List.lookup]
  | (k, v) :: es, a => by
    simp only [List.lookup, List.map_cons, List.mem_cons]
    by_cases hak : a = k
    · subst hak; simp
    · have : (a == k) = false := by simp [hak]
      rw [this]
      simp only [hak, false_or]
      exact lookup_isSome_iff

theorem lookup_eq_none_iff {β : Type} {l : List (String × β)} {a : String} :
    l.lookup a = none ↔ a ∉ l.map Prod.fst := by
  rw [← lookup_isSome_iff, ← Option.not_isSome_iff_eq_none]

theorem lookup_mem {β : Type} :
    ∀ {l : List (String × β)} {a : String} {b : β},
      l.lookup a = some b → (a, b) ∈ l
  | [], a, b, h => by simp [List.lookup] at h
  | (k, v) :: es, a, b, h => by
    simp only [List.lookup] at h
    by_cases hak : a = k
    · subst hak
      simp only [beq_self_eq_true] at h
      cases h
      simp
    · have hne : (a == k) = false := by simp [hak]
      rw [hne] at h
      exact List.mem_cons_of_mem _ (lookup_mem h)

theorem keysOf_enumIdx (names : List String) : keysOf (enumIdx names) = names := by
  simp only [keysOf, enumIdx, List.map_map]
  have : (Prod.fst ∘ fun p : Nat × String => (p.2, p.1)) = Prod.snd := rfl
  rw [this, List.enum_map_snd]

theorem lookup_enumFrom :
    ∀ (names : List String) (off : Nat), names.Nodup →
      ∀ {k : Nat} {a : String}, names[k]? = some a →
        ((List.enumFrom off names).map (fun p => (p.2, p.1))).lookup a
          = some (off + k)
  | [], _, _, k, a, hk => by simp at hk
  | x :: xs, off, hnd, k, a, hk => by
    simp only [List.enumFrom, List.map_cons, List.lookup]
    cases k with
    | zero =>
      simp only [List.getElem?_cons_zero, Option.some.injEq] at hk
      subst hk
      simp
    | succ k =>
      simp only [List.getElem?_cons_succ] at hk
      have hmem : a ∈ xs := List.mem_iff_getElem?.mpr ⟨k, hk⟩
      have hax : a ≠ x := by
        rintro rfl
        exact (List.nodup_cons.mp hnd).1 hmem
      have : (a == x) = false := by simp [hax]
      rw [this]
      rw [lookup_enumFrom xs (off + 1) (List.nodup_cons.mp hnd).2 hk]
      simp only [Option.some.injEq]
      omega

theorem lookup_enumIdx {names : List String} (hnd : names.Nodup) {k : Nat}
    {a : String} (hk : names[k]? = some a) :
    (enumIdx names).lookup a = some k := by
  have := lookup_enumFrom names 0 hnd hk
  simpa [enumIdx, List.enum] using this

theorem mem_sortedUnion {ka kb : List String} {a : String} :
    a ∈ sortedUnion ka kb ↔ a ∈ ka ∨ a ∈ kb := by
  unfold sortedUnion
  rw [(List.perm_insertionSort _ _).mem_iff, List.mem_dedup, List.mem_append]

theorem nodup_sortedUnion (ka kb : List String) : (sortedUnion ka kb).Nodup := by
  unfold sortedUnion
  rw [(List.perm_insertionSort _ _).nodup_iff]
  exact List.nodup_dedup _

/-! ### The embedded Python string order -/

theorem charLtB_irrefl (a : Char) : charLtB a a = false := by simp [charLtB]

theorem charLtB_trans {a b c : Char} (h1 : charLtB a b = true)
    (h2 : charLtB b c = true) : charLtB a c = true := by
  simp only [charLtB, decide_eq_true_eq] at h1 h2 ⊢
  omega

theorem charLtB_antisymm_eq {a b : Char} (h1 : charLtB a b = false)
    (h2 : charLtB b a = false) : a = b := by
  simp only [charLtB, decide_eq_false_iff_not, Nat.not_lt] at h1 h2
  exact Char.ext (UInt32.ext (Nat.le_antisymm h2 h1))

theorem listCharLtB_irrefl : ∀ l : List Char, listCharLtB l l = false
  | [] => rfl
  | a :: as => by simp [listCharLtB, charLtB_irrefl, listCharLtB_irrefl as]

theorem listCharLtB_trans :
    ∀ {la lb lc : List Char}, listCharLtB la lb = true →
      listCharLtB lb lc = true → listCharLtB la lc = true
  | [], [], _, h1, _ => by simp [listCharLtB] at h1
  | [], _ :: _, [], _, h2 => by simp [listCharLtB] at h2
  | [], _ :: _, _ :: _, _, _ => rfl
  | _ :: _, [], _, h1, _ => by simp [listCharLtB] at h1
  | _ :: _, _ :: _, [], _, h2 => by simp [listCharLtB] at h2
  | a :: as, b :: bs, c :: cs, h1, h2 => by
    simp only [listCharLtB] at h1 h2 ⊢
    cases hab : charLtB a b with
    | true =>
      cases hbc : charLtB b c with
      | true => simp [charLtB_trans hab hbc]
      | false =>
        cases hcb : charLtB c b with
        | true => simp [hbc, hcb] at h2
        | false =>
          obtain rfl := charLtB_antisymm_eq hbc hcb
          simp [hab]
    | false =>
      cases hba : charLtB b a with
      | true => simp [hab, hba] at h1
      | false =>
        obtain rfl := charLtB_antisymm_eq hab hba
        simp only [hab, Bool.false_eq_true, if_false] at h1
        cases hac : charLtB a c with
        | true => simp [hac]
        | false =>
          cases hca : charLtB c a with
          | true => simp [hac, hca] at h2
          | false =>
            simp only [hac, hca, Bool.false_eq_true, if_false] at h2 ⊢
            exact listCharLtB_trans h1 h2

theorem listCharLtB_antisymm_eq :
    ∀ {la lb : List Char}, listCharLtB la lb = false →
      listCharLtB lb la = false → la = lb
  | [], [], _, _ => rfl
  | [], _ :: _, h1, _ => by simp [listCharLtB] at h1
  | _ :: _, [], _, h2 => by simp [listCharLtB] at h2
  | a :: as, b :: bs, h1, h2 => by
    simp only [listCharLtB] at h1 h2
    cases hab : charLtB a b with
    | true => simp [hab] at h1
    | false =>
      cases hba : charLtB b a with
      | true => simp [hba] at h2
      | false =>
        obtain rfl := charLtB_antisymm_eq hab hba
        simp only [hab, Bool.false_eq_true, if_false] at h1 h2
        rw [listCharLtB_antisymm_eq h1 h2]

theorem listCharLtB_asymm {la lb : List Char} (h : listCharLtB la lb = true) :
    listCharLtB lb la = false := by
  cases hr : listCharLtB lb la
  · rfl
  · have := listCharLtB_trans h hr
    rw [listCharLtB_irrefl] at this
    exact absurd this (by simp)

theorem strLtB_irrefl (a : String) : strLtB a a = false := by
  simp [strLtB, listCharLtB_irrefl]

theorem strLtB_asymm {a b : String} (h : strLtB a b = true) :
    strLtB b a = false := listCharLtB_asymm h

theorem strLtB_trans {a b c : String} (h1 : strLtB a b = true)
    (h2 : strLtB b c = true) : strLtB a c = true :=
  listCharLtB_trans h1 h2

theorem strLtB_antisymm_eq {a b : String} (h1 : strLtB a b = false)
    (h2 : strLtB b a = false) : a = b := by
  have : a.toList = b.toList := listCharLtB_antisymm_eq h1 h2
  exact String.ext this

theorem strLtB_ne {a b : String} (h : strLtB a b = true) : a ≠ b := by
  rintro rfl
  rw [strLtB_irrefl] at h
  exact absurd h (by simp)

theorem strLeB_total (a b : String) : strLeB a b = true ∨ strLeB b a = true := by
  unfold strLeB
  cases h : strLtB b a
  · simp
  · rw [strLtB_asymm h]
    simp

theorem strLeB_trans {a b c : String} (h1 : strLeB a b = true)
    (h2 : strLeB b c = true) : strLeB a c = true := by
  simp only [strLeB, Bool.not_eq_true'] at h1 h2 ⊢
  cases hca : strLtB c a
  · rfl
  · exfalso
    by_cases hab : strLtB a b = true
    · have := strLtB_trans hca hab
      rw [this] at h2
      simp at h2
    · have hab' : strLtB a b = false := by
        cases h : strLtB a b
        · rfl
        · exact absurd h hab
      have : a = b := strLtB_antisymm_eq hab' h1
      subst this
      rw [hca] at h2
      simp at h2

/-! ### Structure-level helper lemmas -/

theorem idxEquiv_refl (p : List (String × Nat)) : idxEquiv p p = true := by
  simp [idxEquiv, List.all_eq_true]

theorem idxEquiv_lookup_eq {p q : List (String × Nat)}
    (h : idxEquiv p q = true) (a : String) : p.lookup a = q.lookup a := by
  simp only [idxEquiv, Bool.and_eq_true, List.all_eq_true] at h
  obtain ⟨h1, h2⟩ := h
  by_cases hp : a ∈ keysOf p
  · exact (beq_iff_eq.mp (h1 a hp)).symm
  · by_cases hq : a ∈ keysOf q
    · exact beq_iff_eq.mp (h2 a hq)
    · rw [lookup_eq_none_iff.mpr hp, lookup_eq_none_iff.mpr hq]

theorem idxEquiv_false_of_lookup {p q : List (String × Nat)} {a : String}
    (h : p.lookup a ≠ q.lookup a) : idxEquiv p q = false := by
  cases he : idxEquiv p q
  · rfl
  · exact absurd (idxEquiv_lookup_eq he a) h

theorem sc_beq_refl (x : SystemConfig) : SystemConfig.beq x x = true := by
  simp [SystemConfig.beq, idxEquiv_refl]

theorem cand_beq_refl (x : Candidate) : Candidate.beq x x = true := by
  simp [Candidate.beq, idxEquiv_refl]

theorem cand_beq_false_of_idx {x y : Candidate}
    (h : idxEquiv x.idx y.idx = false) : Candidate.beq x y = false := by
  simp [Candidate.beq, h]

theorem cand_beq_false_of_perf {x y : Candidate} (h : x.perf ≠ y.perf) :
    Candidate.beq x y = false := by
  have hb : (x.perf == y.perf) = false := beq_eq_false_iff_ne.mpr h
  simp [Candidate.beq, hb]

theorem cand_beq_false_of_agent {x y : Candidate} (h : x.agent ≠ y.agent) :
    Candidate.beq x y = false := by
  have hb : (x.agent == y.agent) = false := beq_eq_false_iff_ne.mpr h
  simp [Candidate.beq, hb]

theorem sc_beq_false_of_idx {x y : SystemConfig}
    (h : idxEquiv x.idx y.idx = false) : SystemConfig.beq x y = false := by
  simp [SystemConfig.beq, h]

theorem sc_beq_false_of_cnt {x y : SystemConfig} (h : x.cnt ≠ y.cnt) :
    SystemConfig.beq x y = false := by
  have hb : (x.cnt == y.cnt) = false := beq_eq_false_iff_ne.mpr h
  simp [SystemConfig.beq, hb]

theorem keysetSubset_iff {ka kb : List String} :
    keysetSubset ka kb = true ↔ ∀ a ∈ ka, a ∈ kb := by
  simp [keysetSubset, List.all_eq_true, List.contains, List.elem_iff]

theorem keysetSubset_false_iff {ka kb : List String} :
    keysetSubset ka kb = false ↔ ∃ a ∈ ka, a ∉ kb := by
  rw [← Bool.not_eq_true, keysetSubset_iff]
  push_neg
  rfl

theorem sc_data_some_elim {sc : SystemConfig} {a : String} {d : SCData}
    (h : sc.data a = some d) :
    ∃ i, sc.idx.lookup a = some i ∧ sc.cs[i]? = some d.os ∧
      sc.sids[i]? = some d.sid ∧ sc.cnt[i]? = some d.count := by
  cases hl : sc.idx.lookup a with
  | none => simp [SystemConfig.data, hl] at h
  | some i =>
    refine ⟨i, rfl, ?_⟩
    cases hcs : sc.cs[i]? with
    | none => simp [SystemConfig.data, hl, hcs] at h
    | some os =>
      cases hsid : sc.sids[i]? with
      | none => simp [SystemConfig.data, hl, hcs, hsid] at h
      | some sid =>
        cases hcnt : sc.cnt[i]? with
        | none => simp [SystemConfig.data, hl, hcs, hsid, hcnt] at h
        | some count =>
          simp only [SystemConfig.data, hl, hcs, hsid, hcnt,
            Option.some.injEq] at h
          subst h
          exact ⟨rfl, rfl, rfl⟩

theorem sc_data_some_intro {sc : SystemConfig} {a : String} {i : Nat}
    {os : List Int} {sid count : Int} (hl : sc.idx.lookup a = some i)
    (hcs : sc.cs[i]? = some os) (hs : sc.sids[i]? = some sid)
    (hc : sc.cnt[i]? = some count) : sc.data a = some ⟨os, sid, count⟩ := by
  simp only [SystemConfig.data, hl, hcs, hs, hc]

theorem cand_data_some_elim {c : Candidate} {a : String} {d : CData}
    (h : c.data a = some d) :
    ∃ i, c.idx.lookup a = some i ∧ c.cs[i]? = some d.os ∧
      c.sids[i]? = some d.sid := by
  cases hl : c.idx.lookup a with
  | none => simp [Candidate.data, hl] at h
  | some i =>
    refine ⟨i, rfl, ?_⟩
    cases hcs : c.cs[i]? with
    | none => simp [Candidate.data, hl, hcs] at h
    | some os =>
      cases hsid : c.sids[i]? with
      | none => simp [Candidate.data, hl, hcs, hsid] at h
      | some sid =>
        simp only [Candidate.data, hl, hcs, hsid, Option.some.injEq] at h
        subst h
        exact ⟨rfl, rfl⟩

theorem cand_data_some_intro {c : Candidate} {a : String} {i : Nat}
    {os : List Int} {sid : Int} (hl : c.idx.lookup a = some i)
    (hcs : c.cs[i]? = some os) (hs : c.sids[i]? = some sid) :
    c.data a = some ⟨os, sid⟩ := by
  simp only [Candidate.data, hl, hcs, hs]

theorem sc_data_lookup_isSome {sc : SystemConfig} {a : String}
    {d : SCData} (h : sc.data a = some d) : (sc.idx.lookup a).isSome = true := by
  obtain ⟨i, hl, _⟩ := sc_data_some_elim h
  rw [hl]
  rfl

/-! ### Claim C10: `Candidate.update` transfers authorship and recomputes
the performance -/

/-- C10: for every candidate `c` and agent `a` present in `c.idx`,
`Candidate.update(a, os, sid, f)` returns a candidate authored by `a`
(authorship transfers even when `c` was authored by someone else) whose
`perf` equals `f` applied to the updated cluster-schedule matrix. -/
theorem c10_update_authorship (c : Candidate) (a : String) (os : List Int)
    (sid : Int) (f : List (List Int) → Int) (u : Candidate)
    (h : Candidate.update c a os sid f = some u) :
    u.agent = a ∧ u.perf = f u.cs ∧
      ∃ i, c.idx.lookup a = some i ∧
        u = ⟨a, c.idx, c.cs.set i os, c.sids.set i sid, f (c.cs.set i os)⟩ := by
  cases hl : c.idx.lookup a with
  | none => simp [Candidate.update, hl] at h
  | some i =>
    cases hcs : c.cs[i]? with
    | none => simp [Candidate.update, hl, hcs] at h
    | some row =>
      cases hsid : c.sids[i]? with
      | none => simp [Candidate.update, hl, hcs, hsid] at h
      | some s0 =>
        by_cases hlen : os.length = row.length
        · simp only [Candidate.update, hl, hcs, hsid, if_pos hlen,
            Option.some.injEq] at h
          subst h
          exact ⟨rfl, rfl, i, rfl, rfl⟩
        · simp [Candidate.update, hl, hcs, hsid, hlen] at h

/-- Witness for C10 at a concrete input: the original author `"b"` is
replaced by the updating agent `"a"`. -/
theorem c10_update_authorship_witness :
    (⟨"a", [("a", 0)], [[9]], [9], 1⟩ : Candidate).agent = "a" ∧
      (⟨"a", [("a", 0)], [[9]], [9], 1⟩ : Candidate).perf
        = (fun cs => (cs.length : Int))
            (⟨"a", [("a", 0)], [[9]], [9], 1⟩ : Candidate).cs :=
  ⟨(c10_update_authorship ⟨"b", [("a", 0)], [[1]], [2], 5⟩ "a" [9] 9
      (fun cs => (cs.length : Int)) ⟨"a", [("a", 0)], [[9]], [9], 1⟩
      (by decide)).1,
   (c10_update_authorship ⟨"b", [("a", 0)], [[1]], [2], 5⟩ "a" [9] 9
      (fun cs => (cs.length : Int)) ⟨"a", [("a", 0)], [[9]], [9], 1⟩
      (by decide)).2.1⟩

/-! ### Claim C7: candidate-merge tie-break by author name -/

/-- C7: with equal key sets and equal performances, `Candidate.merge`
returns the candidate whose author name is the lexicographic minimum
(`candidate_i` on equal names). -/
theorem c7_merge_tiebreak (ci cj : Candidate) (me : String)
    (f : List (List Int) → Int)
    (hk : keysetEq (keysOf ci.idx) (keysOf cj.idx) = true)
    (hp : ci.perf = cj.perf) :
    (Candidate.merge ci cj me f).map Candidate.agent
      = some (minString ci.agent cj.agent) := by
  have hks := hk
  simp only [keysetEq, Bool.and_eq_true] at hks
  have hss : keysetSSubset (keysOf ci.idx) (keysOf cj.idx) = false := by
    simp [keysetSSubset, hks.1, hks.2]
  simp only [Candidate.merge, hss, Bool.false_eq_true, if_false, hk, if_true]
  rw [if_neg (by omega), if_pos (by simp [hp])]
  cases hlt : strLtB cj.agent ci.agent
  · simp [minString, hlt]
  · simp [minString, hlt]

/-- Witness for C7 at a concrete input: equal key sets, equal
performances, `"a" < "b"`, so the merge keeps the candidate authored by
`"a"`. -/
theorem c7_merge_tiebreak_witness :
    (Candidate.merge ⟨"b", [("x", 0)], [[1]], [1], -3⟩
        ⟨"a", [("x", 0)], [[9]], [9], -3⟩ "me" (fun _ => 0)).map Candidate.agent
      = some (minString "b" "a") :=
  c7_merge_tiebreak ⟨"b", [("x", 0)], [[1]], [1], -3⟩
    ⟨"a", [("x", 0)], [[9]], [9], -3⟩ "me" (fun _ => 0) (by decide) (by decide)

/-! ### Claim C6: `SystemConfig.update` is a pure single-row update -/

/-- C6: for an agent present in `sc.idx`, `sc.update(agent, os, sid)`
yields a configuration whose row for that agent is `(os, sid)` with a
counter exactly one higher, while the index map and every other agent's
row, schedule id and counter are unchanged (the original `sc` is a pure
value and is never mutated).  The hypothesis is the bijectivity of the
index map recorded as an invariant of the data model. -/
theorem c6_update_frame (sc : SystemConfig) (agent : String) (os : List Int)
    (sid : Int) (u : SystemConfig)
    (hinj : (sc.idx.map Prod.snd).Nodup)
    (h : sc.update agent os sid = some u) :
    u.idx = sc.idx ∧
      (∃ d, sc.data agent = some d ∧
        u.data agent = some ⟨os, sid, d.count + 1⟩) ∧
      ∀ b, b ≠ agent → u.data b = sc.data b := by
  cases hl : sc.idx.lookup agent with
  | none => simp [SystemConfig.update, hl] at h
  | some i =>
    cases hcs : sc.cs[i]? with
    | none => simp [SystemConfig.update, hl, hcs] at h
    | some row =>
      cases hsid : sc.sids[i]? with
      | none => simp [SystemConfig.update, hl, hcs, hsid] at h
      | some s0 =>
        cases hcnt : sc.cnt[i]? with
        | none => simp [SystemConfig.update, hl, hcs, hsid, hcnt] at h
        | some c =>
          by_cases hlen : os.length = row.length
          · simp only [SystemConfig.update, hl, hcs, hsid, hcnt,
              if_pos hlen, Option.some.injEq] at h
            subst h
            have hilt : i < sc.cs.length := (List.getElem?_eq_some.mp hcs).1
            have hslt : i < sc.sids.length := (List.getElem?_eq_some.mp hsid).1
            have hclt : i < sc.cnt.length := (List.getElem?_eq_some.mp hcnt).1
            refine ⟨rfl, ⟨⟨row, s0, c⟩,
              sc_data_some_intro hl hcs hsid hcnt, ?_⟩, ?_⟩
            · exact sc_data_some_intro hl
                (List.getElem?_set_self hilt) (List.getElem?_set_self hslt)
                (List.getElem?_set_self hclt)
            · intro b hb
              cases hlb : sc.idx.lookup b with
              | none =>
                simp [SystemConfig.data, hlb]
              | some j =>
                have hji : i ≠ j := by
                  intro hij
                  subst hij
                  have hmem1 := lookup_mem hl
                  have hmem2 := lookup_mem hlb
                  have := List.inj_on_of_nodup_map hinj hmem1 hmem2 rfl
                  exact hb (by injection this with h1 _; exact h1.symm)
                simp only [SystemConfig.data, hlb,
                  List.getElem?_set_ne hji]
          · simp [SystemConfig.update, hl, hcs, hsid, hcnt, hlen] at h

/-- Witness for C6 at a concrete two-agent configuration. -/
theorem c6_update_frame_witness :
    (⟨[("a", 0), ("b", 1)], [[1], [7]], [1, 9], [0, 6]⟩ : SystemConfig).idx
        = [("a", 0), ("b", 1)] ∧
      ∃ d, (⟨[("a", 0), ("b", 1)], [[1], [2]], [1, 2], [0, 5]⟩ :
          SystemConfig).data "b" = some d ∧
        (⟨[("a", 0), ("b", 1)], [[1], [7]], [1, 9], [0, 6]⟩ :
          SystemConfig).data "b" = some ⟨[7], 9, d.count + 1⟩ :=
  ⟨(c6_update_frame ⟨[("a", 0), ("b", 1)], [[1], [2]], [1, 2], [0, 5]⟩ "b" [7] 9
      ⟨[("a", 0), ("b", 1)], [[1], [7]], [1, 9], [0, 6]⟩ (by decide)
      (by decide)).1,
   (c6_update_frame ⟨[("a", 0), ("b", 1)], [[1], [2]], [1, 2], [0, 5]⟩ "b" [7] 9
      ⟨[("a", 0), ("b", 1)], [[1], [7]], [1, 9], [0, 6]⟩ (by decide)
      (by decide)).2.1⟩

/-! ### Claim C9: `Candidate.merge` covers the union of the key sets -/

/-- C9: in every branch of `Candidate.merge`, the key set of the result is
exactly the union of the two input key sets: no agent is lost and none is
invented. -/
theorem c9_merge_keyset_union (ci cj : Candidate) (me : String)
    (f : List (List Int) → Int) (r : Candidate)
    (h : Candidate.merge ci cj me f = some r) (a : String) :
    a ∈ keysOf r.idx ↔ (a ∈ keysOf ci.idx ∨ a ∈ keysOf cj.idx) := by
  cases hss : keysetSSubset (keysOf ci.idx) (keysOf cj.idx) with
  | true =>
    simp only [Candidate.merge, hss, if_true, Option.some.injEq] at h
    subst h
    have hd := hss
    simp only [keysetSSubset, Bool.and_eq_true] at hd
    have hsub := keysetSubset_iff.mp hd.1
    constructor
    · exact fun ha => Or.inr ha
    · rintro (ha | ha)
      · exact hsub a ha
      · exact ha
  | false =>
    cases heq : keysetEq (keysOf ci.idx) (keysOf cj.idx) with
    | true =>
      have hd := heq
      simp only [keysetEq, Bool.and_eq_true] at hd
      have h1 := keysetSubset_iff.mp hd.1
      have h2 := keysetSubset_iff.mp hd.2
      simp only [Candidate.merge, hss, Bool.false_eq_true, if_false, heq,
        if_true] at h
      split at h
      · simp only [Option.some.injEq] at h
        subst h
        constructor
        · exact fun ha => Or.inr ha
        · rintro (ha | ha)
          · exact h1 a ha
          · exact ha
      · split at h
        · split at h
          · simp only [Option.some.injEq] at h
            subst h
            constructor
            · exact fun ha => Or.inr ha
            · rintro (ha | ha)
              · exact h1 a ha
              · exact ha
          · simp only [Option.some.injEq] at h
            subst h
            constructor
            · exact fun ha => Or.inl ha
            · rintro (ha | ha)
              · exact ha
              · exact h2 a ha
        · simp only [Option.some.injEq] at h
          subst h
          constructor
          · exact fun ha => Or.inl ha
          · rintro (ha | ha)
            · exact ha
            · exact h2 a ha
    | false =>
      cases hns : keysetSubset (keysOf cj.idx) (keysOf ci.idx) with
      | false =>
        cases hm : mapOption
            (fun a => if (keysOf ci.idx).contains a then ci.data a
              else cj.data a)
            (sortedUnion (keysOf ci.idx) (keysOf cj.idx)) with
        | none =>
          simp only [Candidate.merge, hss, heq, hns, Bool.false_eq_true,
            if_false, Bool.not_false, if_true] at h
          rw [hm] at h
          exact absurd h (by simp)
        | some rows =>
          simp only [Candidate.merge, hss, heq, hns, hm, Bool.false_eq_true,
            if_false, Bool.not_false, if_true, Option.some.injEq] at h
          subst h
          simp only [keysOf_enumIdx]
          exact mem_sortedUnion
      | true =>
        simp only [Candidate.merge, hss, heq, hns, Bool.false_eq_true,
          if_false, Bool.not_true, Option.some.injEq] at h
        subst h
        have hsub := keysetSubset_iff.mp hns
        constructor
        · exact fun ha => Or.inl ha
        · rintro (ha | ha)
          · exact ha
          · exact hsub a ha

/-- Witness for C9 on two single-agent candidates with distinct agents. -/
theorem c9_merge_keyset_union_witness :
    "b" ∈ keysOf (Candidate.mk "me" [("a", 0), ("b", 1)] [[1], [2]] [1, 2] 2).idx
      ↔ ("b" ∈ keysOf (Candidate.mk "a" [("a", 0)] [[1]] [1] (-1)).idx ∨
          "b" ∈ keysOf (Candidate.mk "b" [("b", 0)] [[2]] [2] (-2)).idx) :=
  c9_merge_keyset_union ⟨"a", [("a", 0)], [[1]], [1], -1⟩
    ⟨"b", [("b", 0)], [[2]], [2], -2⟩ "me" (fun cs => (cs.length : Int))
    ⟨"me", [("a", 0), ("b", 1)], [[1], [2]], [1, 2], 2⟩ (by decide) "b"

/-! ### Case analysis of the `SystemConfig.merge` loop -/

theorem mergeRow_spec {si sj : SystemConfig} {a : String} {bd : Bool × SCData}
    (h : SystemConfig.mergeRow si sj a = some bd) :
    (∃ di dj, si.data a = some di ∧ sj.data a = some dj ∧
        ((di.count < dj.count ∧ bd = (true, dj)) ∨
         (dj.count ≤ di.count ∧ bd = (false, di)))) ∨
    (∃ di, si.data a = some di ∧ (sj.idx.lookup a).isSome = false ∧
        bd = (false, di)) ∨
    (si.idx.lookup a = none ∧ ∃ dj, sj.data a = some dj ∧
        -1 < dj.count ∧ bd = (true, dj)) := by
  cases hi : (si.idx.lookup a).isSome with
  | true =>
    cases hdi : si.data a with
    | none => simp [SystemConfig.mergeRow, hi, hdi] at h
    | some di =>
      cases hj : (sj.idx.lookup a).isSome with
      | false =>
        simp only [SystemConfig.mergeRow, hi, if_true, hdi, hj,
          Bool.false_eq_true, if_false, Option.some.injEq] at h
        exact Or.inr (Or.inl ⟨di, rfl, rfl, h.symm⟩)
      | true =>
        cases hdj : sj.data a with
        | none => simp [SystemConfig.mergeRow, hi, hdi, hj, hdj] at h
        | some dj =>
          by_cases hcmp : di.count < dj.count
          · simp only [SystemConfig.mergeRow, hi, if_true, hdi, hj, hdj,
              gt_iff_lt, if_pos hcmp, Option.some.injEq] at h
            exact Or.inl ⟨di, dj, rfl, rfl, Or.inl ⟨hcmp, h.symm⟩⟩
          · simp only [SystemConfig.mergeRow, hi, if_true, hdi, hj, hdj,
              gt_iff_lt, if_neg hcmp, Option.some.injEq] at h
            exact Or.inl ⟨di, dj, rfl, rfl,
              Or.inr ⟨le_of_not_lt hcmp, h.symm⟩⟩
  | false =>
    have hnone : si.idx.lookup a = none := by
      cases hl : si.idx.lookup a
      · rfl
      · rw [hl] at hi; simp at hi
    cases hdj : sj.data a with
    | none => simp [SystemConfig.mergeRow, hi, hdj] at h
    | some dj =>
      by_cases hcmp : (-1 : Int) < dj.count
      · simp only [SystemConfig.mergeRow, hi, Bool.false_eq_true, if_false,
          hdj, gt_iff_lt, if_pos hcmp, Option.some.injEq] at h
        exact Or.inr (Or.inr ⟨hnone, dj, rfl, hcmp, h.symm⟩)
      · simp [SystemConfig.mergeRow, hi, hdj, hcmp] at h

theorem mergeRow_count_left {si sj : SystemConfig} {a : String}
    {bd : Bool × SCData} {di : SCData}
    (h : SystemConfig.mergeRow si sj a = some bd)
    (hd : si.data a = some di) : di.count ≤ bd.2.count := by
  rcases mergeRow_spec h with
    ⟨di', dj, hdi, _, hc | hc⟩ | ⟨di', hdi, _, hbd⟩ | ⟨hnone, _⟩
  · rw [hd] at hdi
    injection hdi with hdi
    subst hdi
    rw [hc.2]
    exact le_of_lt hc.1
  · rw [hd] at hdi
    injection hdi with hdi
    subst hdi
    rw [hc.2]
  · rw [hd] at hdi
    injection hdi with hdi
    subst hdi
    rw [hbd]
  · have hs := sc_data_lookup_isSome hd
    rw [hnone] at hs
    exact absurd hs (by simp)

theorem mergeRow_count_right {si sj : SystemConfig} {a : String}
    {bd : Bool × SCData} {dj : SCData}
    (h : SystemConfig.mergeRow si sj a = some bd)
    (hd : sj.data a = some dj) : dj.count ≤ bd.2.count := by
  rcases mergeRow_spec h with
    ⟨di, dj', _, hdj, hc | hc⟩ | ⟨_, _, hj, _⟩ | ⟨_, dj', hdj, _, hbd⟩
  · rw [hd] at hdj
    injection hdj with hdj
    subst hdj
    rw [hc.2]
  · rw [hd] at hdj
    injection hdj with hdj
    subst hdj
    rw [hc.2]
    exact hc.1
  · rw [sc_data_lookup_isSome hd] at hj
    exact absurd hj (by simp)
  · rw [hd] at hdj
    injection hdj with hdj
    subst hdj
    rw [hbd]

theorem mergeRow_false_elim {si sj : SystemConfig} {a : String}
    {bd : Bool × SCData} (h : SystemConfig.mergeRow si sj a = some bd)
    (hf : bd.1 = false) :
    si.data a = some bd.2 ∧
      ∀ dj, sj.data a = some dj → dj.count ≤ bd.2.count := by
  rcases mergeRow_spec h with
    ⟨di, dj, hdi, hdj, hc | hc⟩ | ⟨di, hdi, hj, hbd⟩ | ⟨_, dj, _, _, hbd⟩
  · rw [hc.2] at hf
    simp at hf
  · rw [hc.2]
    refine ⟨hdi, fun dj' hdj' => ?_⟩
    rw [hdj] at hdj'
    injection hdj' with hdj'
    subst hdj'
    exact hc.1
  · rw [hbd]
    refine ⟨hdi, fun dj' hdj' => ?_⟩
    rw [sc_data_lookup_isSome hdj'] at hj
    exact absurd hj (by simp)
  · rw [hbd] at hf
    simp at hf

theorem mergeRow_true_elim {si sj : SystemConfig} {a : String}
    {bd : Bool × SCData} (h : SystemConfig.mergeRow si sj a = some bd)
    (ht : bd.1 = true) :
    ∃ dj, sj.data a = some dj ∧ bd.2 = dj ∧
      ((∃ di, si.data a = some di ∧ di.count < dj.count) ∨
        si.idx.lookup a = none) := by
  rcases mergeRow_spec h with
    ⟨di, dj, hdi, hdj, hc | hc⟩ | ⟨di, hdi, hj, hbd⟩ | ⟨hnone, dj, hdj, _, hbd⟩
  · rw [hc.2]
    exact ⟨dj, hdj, rfl, Or.inl ⟨di, hdi, hc.1⟩⟩
  · rw [hc.2] at ht
    simp at ht
  · rw [hbd] at ht
    simp at ht
  · rw [hbd]
    exact ⟨dj, hdj, rfl, Or.inr hnone⟩

theorem merge_some_elim {si sj z : SystemConfig}
    (h : SystemConfig.merge si sj = some z) :
    ∃ rows, SystemConfig.mergeRows si sj = some rows ∧
      ((rows.any Prod.fst = false ∧ z = si) ∨
       (rows.any Prod.fst = true ∧
        z = ⟨enumIdx (sortedUnion (keysOf si.idx) (keysOf sj.idx)),
             rows.map (fun r => r.2.os), rows.map (fun r => r.2.sid),
             rows.map (fun r => r.2.count)⟩)) := by
  cases hm : SystemConfig.mergeRows si sj with
  | none => simp [SystemConfig.merge, hm] at h
  | some rows =>
    refine ⟨rows, rfl, ?_⟩
    cases hany : rows.any Prod.fst with
    | false =>
      left
      simp only [SystemConfig.merge, hm, hany, Bool.false_eq_true, if_false,
        Option.some.injEq] at h
      exact ⟨rfl, h.symm⟩
    | true =>
      right
      simp only [SystemConfig.merge, hm, hany, if_true,
        Option.some.injEq] at h
      exact ⟨rfl, h.symm⟩

theorem merge_built_data {names : List String} {rows : List (Bool × SCData)}
    (hnd : names.Nodup) {k : Nat} {a : String} {bd : Bool × SCData}
    (hk : names[k]? = some a) (hr : rows[k]? = some bd) :
    (SystemConfig.mk (enumIdx names) (rows.map (fun r => r.2.os))
      (rows.map (fun r => r.2.sid)) (rows.map (fun r => r.2.count))).data a
      = some bd.2 := by
  have h1 : (rows.map (fun r => r.2.os))[k]? = some bd.2.os := by
    rw [List.getElem?_map, hr]; rfl
  have h2 : (rows.map (fun r => r.2.sid))[k]? = some bd.2.sid := by
    rw [List.getElem?_map, hr]; rfl
  have h3 : (rows.map (fun r => r.2.count))[k]? = some bd.2.count := by
    rw [List.getElem?_map, hr]; rfl
  exact sc_data_some_intro (lookup_enumIdx hnd hk) h1 h2 h3

/-! ### Claim C5: merge monotonicity of the counters -/

/-- C5: for every successful merge and every agent present in an input,
the counter of that agent in the result is at least its counter in that
input (hence at least the maximum over the inputs containing it). -/
theorem c5_merge_counter_monotone (si sj z : SystemConfig)
    (h : SystemConfig.merge si sj = some z) :
    (∀ a di, si.data a = some di →
      ∃ dz, z.data a = some dz ∧ di.count ≤ dz.count) ∧
    (∀ a dj, sj.data a = some dj →
      ∃ dz, z.data a = some dz ∧ dj.count ≤ dz.count) := by
  obtain ⟨rows, hm, hcase⟩ := merge_some_elim h
  have key : ∀ a, a ∈ sortedUnion (keysOf si.idx) (keysOf sj.idx) →
      ∃ (k : Nat) (bd : Bool × SCData),
        (sortedUnion (keysOf si.idx) (keysOf sj.idx))[k]? = some a ∧
        rows[k]? = some bd ∧ SystemConfig.mergeRow si sj a = some bd := by
    intro a ha
    obtain ⟨k, hk⟩ := List.mem_iff_getElem?.mp ha
    obtain ⟨bd, hbd, hrow⟩ := mapOption_getElem? hm hk
    exact ⟨k, bd, hk, hbd, hrow⟩
  have hmemi : ∀ (a : String) (di : SCData), si.data a = some di →
      a ∈ sortedUnion (keysOf si.idx) (keysOf sj.idx) := by
    intro a di hd
    exact mem_sortedUnion.mpr
      (Or.inl (lookup_isSome_iff.mp (sc_data_lookup_isSome hd)))
  have hmemj : ∀ (a : String) (dj : SCData), sj.data a = some dj →
      a ∈ sortedUnion (keysOf si.idx) (keysOf sj.idx) := by
    intro a dj hd
    exact mem_sortedUnion.mpr
      (Or.inr (lookup_isSome_iff.mp (sc_data_lookup_isSome hd)))
  rcases hcase with ⟨hany, rfl⟩ | ⟨hany, rfl⟩
  · constructor
    · intro a di hd
      exact ⟨di, hd, le_refl _⟩
    · intro a dj hd
      obtain ⟨k, bd, hk, hbd, hrow⟩ := key a (hmemj a dj hd)
      have hfalse : bd.1 = false := by
        have hmem : bd ∈ rows := List.mem_iff_getElem?.mpr ⟨k, hbd⟩
        cases hb : bd.1
        · rfl
        · have : rows.any Prod.fst = true :=
            List.any_eq_true.mpr ⟨bd, hmem, hb⟩
          rw [this] at hany
          exact absurd hany (by simp)
      obtain ⟨hdi, hle⟩ := mergeRow_false_elim hrow hfalse
      exact ⟨bd.2, hdi, hle dj hd⟩
  · constructor
    · intro a di hd
      obtain ⟨k, bd, hk, hbd, hrow⟩ := key a (hmemi a di hd)
      exact ⟨bd.2, merge_built_data (nodup_sortedUnion _ _) hk hbd,
        mergeRow_count_left hrow hd⟩
    · intro a dj hd
      obtain ⟨k, bd, hk, hbd, hrow⟩ := key a (hmemj a dj hd)
      exact ⟨bd.2, merge_built_data (nodup_sortedUnion _ _) hk hbd,
        mergeRow_count_right hrow hd⟩

/-- Witness for C5: a two-configuration merge where the j side wins on a
common agent. -/
theorem c5_merge_counter_monotone_witness :
    ∃ dz, (SystemConfig.mk [("a", 0), ("b", 1)] [[1], [5]] [1, 5] [0, 3]).data
        "b" = some dz ∧ (3 : Int) ≤ dz.count :=
  (c5_merge_counter_monotone ⟨[("a", 0), ("b", 1)], [[1], [2]], [1, 2], [0, 1]⟩
      ⟨[("b", 0)], [[5]], [5], [3]⟩
      ⟨[("a", 0), ("b", 1)], [[1], [5]], [1, 5], [0, 3]⟩ (by decide)).2
    "b" ⟨[5], 5, 3⟩ (by decide)

/-! ### Claim C2: structural equality coincides with identity for merges -/

theorem lookup_ne_of_mem_not_mem {p q : List (String × Nat)} {b : String}
    (hp : b ∈ keysOf p) (hq : b ∉ keysOf q) : p.lookup b ≠ q.lookup b := by
  rw [lookup_eq_none_iff.mpr hq]
  intro he
  exact (lookup_eq_none_iff.mp he) hp

/-- Python float equality is reflexive away from NaN. -/
theorem pyEqB_refl {x : PyFloat} (h : x.isNan = false) : pyEqB x x = true := by
  cases x with
  | val q => simp [pyEqB]
  | nan => simp [PyFloat.isNan] at h

theorem pyEqB_false_of_gt {a b : PyFloat} (h : pyGtB a b = true) :
    pyEqB a b = false := by
  cases a with
  | nan => rfl
  | val qa =>
    cases b with
    | nan => rfl
    | val qb =>
      simp only [pyGtB, decide_eq_true_eq] at h
      simp only [pyEqB, beq_eq_false_iff_ne, ne_eq]
      omega

theorem zip_self_all {α : Type} (f : α × α → Bool) :
    ∀ r : List α, (List.zip r r).all f = r.all (fun x => f (x, x))
  | [] => rfl
  | x :: xs => by
    simp only [List.zip_cons_cons, List.all_cons, zip_self_all f xs]

theorem rowEqB_refl {r : List PyFloat} (h : ∀ x ∈ r, x.isNan = false) :
    rowEqB r r = true := by
  simp only [rowEqB, beq_self_eq_true, Bool.true_and, zip_self_all,
    List.all_eq_true]
  exact fun x hx => pyEqB_refl (h x hx)

/-- NumPy array equality is reflexive on NaN-free matrices. -/
theorem array_equal_refl {m : List (List PyFloat)} (h : nanFree m = true) :
    array_equal m m = true := by
  simp only [nanFree, List.all_eq_true, Bool.not_eq_true'] at h
  simp only [array_equal, beq_self_eq_true, Bool.true_and, zip_self_all,
    List.all_eq_true]
  exact fun r hr => rowEqB_refl (fun x hx => h r hr x hx)

theorem scF_beq_refl {x : SystemConfigF} (h : nanFree x.cs = true) :
    SystemConfigF.beq x x = true := by
  simp [SystemConfigF.beq, idxEquiv_refl, array_equal_refl h]

theorem candF_beq_refl {x : CandidateF} (hp : x.perf.isNan = false)
    (h : nanFree x.cs = true) : CandidateF.beq x x = true := by
  simp [CandidateF.beq, idxEquiv_refl, pyEqB_refl hp, array_equal_refl h]

theorem scF_beq_false_of_idx {x y : SystemConfigF}
    (h : idxEquiv x.idx y.idx = false) : SystemConfigF.beq x y = false := by
  simp [SystemConfigF.beq, h]

theorem scF_beq_false_of_cnt {x y : SystemConfigF} (h : x.cnt ≠ y.cnt) :
    SystemConfigF.beq x y = false := by
  have hb : (x.cnt == y.cnt) = false := beq_eq_false_iff_ne.mpr h
  simp [SystemConfigF.beq, hb]

theorem candF_beq_false_of_idx {x y : CandidateF}
    (h : idxEquiv x.idx y.idx = false) : CandidateF.beq x y = false := by
  simp [CandidateF.beq, h]

theorem candF_beq_false_of_perf {x y : CandidateF}
    (h : pyEqB x.perf y.perf = false) : CandidateF.beq x y = false := by
  simp [CandidateF.beq, h]

theorem candF_beq_false_of_agent {x y : CandidateF} (h : x.agent ≠ y.agent) :
    CandidateF.beq x y = false := by
  have hb : (x.agent == y.agent) = false := beq_eq_false_iff_ne.mpr h
  simp [CandidateF.beq, hb]

theorem scF_data_some_elim {sc : SystemConfigF} {a : String} {d : SCFData}
    (h : sc.data a = some d) :
    ∃ i, sc.idx.lookup a = some i ∧ sc.cs[i]? = some d.os ∧
      sc.sids[i]? = some d.sid ∧ sc.cnt[i]? = some d.count := by
  cases hl : sc.idx.lookup a with
  | none => simp [SystemConfigF.data, hl] at h
  | some i =>
    refine ⟨i, rfl, ?_⟩
    cases hcs : sc.cs[i]? with
    | none => simp [SystemConfigF.data, hl, hcs] at h
    | some os =>
      cases hsid : sc.sids[i]? with
      | none => simp [SystemConfigF.data, hl, hcs, hsid] at h
      | some sid =>
        cases hcnt : sc.cnt[i]? with
        | none => simp [SystemConfigF.data, hl, hcs, hsid, hcnt] at h
        | some count =>
          simp only [SystemConfigF.data, hl, hcs, hsid, hcnt,
            Option.some.injEq] at h
          subst h
          exact ⟨rfl, rfl, rfl⟩

theorem mergeRowF_spec {si sj : SystemConfigF} {a : String}
    {bd : Bool × SCFData} (h : SystemConfigF.mergeRow si sj a = some bd) :
    (∃ di dj, si.data a = some di ∧ sj.data a = some dj ∧
        ((di.count < dj.count ∧ bd = (true, dj)) ∨
         (dj.count ≤ di.count ∧ bd = (false, di)))) ∨
    (∃ di, si.data a = some di ∧ (sj.idx.lookup a).isSome = false ∧
        bd = (false, di)) ∨
    (si.idx.lookup a = none ∧ ∃ dj, sj.data a = some dj ∧
        -1 < dj.count ∧ bd = (true, dj)) := by
  cases hi : (si.idx.lookup a).isSome with
  | true =>
    cases hdi : si.data a with
    | none => simp [SystemConfigF.mergeRow, hi, hdi] at h
    | some di =>
      cases hj : (sj.idx.lookup a).isSome with
      | false =>
        simp only [SystemConfigF.mergeRow, hi, if_true, hdi, hj,
          Bool.false_eq_true, if_false, Option.some.injEq] at h
        exact Or.inr (Or.inl ⟨di, rfl, rfl, h.symm⟩)
      | true =>
        cases hdj : sj.data a with
        | none => simp [SystemConfigF.mergeRow, hi, hdi, hj, hdj] at h
        | some dj =>
          by_cases hcmp : di.count < dj.count
          · simp only [SystemConfigF.mergeRow, hi, if_true, hdi, hj, hdj,
              gt_iff_lt, if_pos hcmp, Option.some.injEq] at h
            exact Or.inl ⟨di, dj, rfl, rfl, Or.inl ⟨hcmp, h.symm⟩⟩
          · simp only [SystemConfigF.mergeRow, hi, if_true, hdi, hj, hdj,
              gt_iff_lt, if_neg hcmp, Option.some.injEq] at h
            exact Or.inl ⟨di, dj, rfl, rfl,
              Or.inr ⟨le_of_not_lt hcmp, h.symm⟩⟩
  | false =>
    have hnone : si.idx.lookup a = none := by
      cases hl : si.idx.lookup a
      · rfl
      · rw [hl] at hi; simp at hi
    cases hdj : sj.data a with
    | none => simp [SystemConfigF.mergeRow, hi, hdj] at h
    | some dj =>
      by_cases hcmp : (-1 : Int) < dj.count
      · simp only [SystemConfigF.mergeRow, hi, Bool.false_eq_true, if_false,
          hdj, gt_iff_lt, if_pos hcmp, Option.some.injEq] at h
        exact Or.inr (Or.inr ⟨hnone, dj, rfl, hcmp, h.symm⟩)
      · simp [SystemConfigF.mergeRow, hi, hdj, hcmp] at h

theorem mergeRowF_true_elim {si sj : SystemConfigF} {a : String}
    {bd : Bool × SCFData} (h : SystemConfigF.mergeRow si sj a = some bd)
    (ht : bd.1 = true) :
    ∃ dj, sj.data a = some dj ∧ bd.2 = dj ∧
      ((∃ di, si.data a = some di ∧ di.count < dj.count) ∨
        si.idx.lookup a = none) := by
  rcases mergeRowF_spec h with
    ⟨di, dj, hdi, hdj, hc | hc⟩ | ⟨di, hdi, hj, hbd⟩ | ⟨hnone, dj, hdj, _, hbd⟩
  · rw [hc.2]
    exact ⟨dj, hdj, rfl, Or.inl ⟨di, hdi, hc.1⟩⟩
  · rw [hc.2] at ht
    simp at ht
  · rw [hbd] at ht
    simp at ht
  · rw [hbd]
    exact ⟨dj, hdj, rfl, Or.inr hnone⟩

theorem mergeCoreF_some_elim {si sj z : SystemConfigF}
    (h : SystemConfigF.mergeCore si sj = some z) :
    ∃ rows, SystemConfigF.mergeRows si sj = some rows ∧
      ((rows.any Prod.fst = false ∧ z = si) ∨
       (rows.any Prod.fst = true ∧
        z = ⟨enumIdx (sortedUnion (keysOf si.idx) (keysOf sj.idx)),
             rows.map (fun r => r.2.os), rows.map (fun r => r.2.sid),
             rows.map (fun r => r.2.count)⟩)) := by
  cases hm : SystemConfigF.mergeRows si sj with
  | none => simp [SystemConfigF.mergeCore, hm] at h
  | some rows =>
    refine ⟨rows, rfl, ?_⟩
    cases hany : rows.any Prod.fst with
    | false =>
      left
      simp only [SystemConfigF.mergeCore, hm, hany, Bool.false_eq_true,
        if_false, Option.some.injEq] at h
      exact ⟨rfl, h.symm⟩
    | true =>
      right
      simp only [SystemConfigF.mergeCore, hm, hany, if_true,
        Option.some.injEq] at h
      exact ⟨rfl, h.symm⟩

/-- The `SystemConfig.merge` half of the identity assertion over floats:
provided `sysconf_i`'s cluster schedule is NaN-free, the merge result is
Python-equal to `sysconf_i` exactly when nothing was overwritten, i.e.
exactly when the original instance is returned. -/
theorem mergeF_beq_iff_not_modified {si sj z : SystemConfigF}
    (hnf : nanFree si.cs = true)
    (h : SystemConfigF.mergeCore si sj = some z) :
    (SystemConfigF.beq z si = true ↔
      SystemConfigF.mergeModified si sj = some false) := by
  obtain ⟨rows, hm, hcase⟩ := mergeCoreF_some_elim h
  have hrhs : SystemConfigF.mergeModified si sj = some false ↔
      rows.any Prod.fst = false := by
    simp [SystemConfigF.mergeModified, hm]
  rcases hcase with ⟨hany, rfl⟩ | ⟨hany, rfl⟩
  · simp [scF_beq_refl hnf, hrhs, hany]
  · rw [hrhs]
    obtain ⟨bd, hmem, hb⟩ := List.any_eq_true.mp hany
    obtain ⟨k, hbd⟩ := List.mem_iff_getElem?.mp hmem
    obtain ⟨a, hk, hrow⟩ := mapOption_getElem?_rev hm hbd
    obtain ⟨dj, hdj, hbd2, hcase2⟩ := mergeRowF_true_elim hrow hb
    have hlz : (enumIdx (sortedUnion (keysOf si.idx) (keysOf sj.idx))).lookup a
        = some k := lookup_enumIdx (nodup_sortedUnion _ _) hk
    rcases hcase2 with ⟨di, hdi, hlt⟩ | hnone
    · cases hie : idxEquiv
          (enumIdx (sortedUnion (keysOf si.idx) (keysOf sj.idx))) si.idx with
      | false =>
        have hbeq := scF_beq_false_of_idx (x :=
          ⟨enumIdx (sortedUnion (keysOf si.idx) (keysOf sj.idx)),
           rows.map (fun r => r.2.os), rows.map (fun r => r.2.sid),
           rows.map (fun r => r.2.count)⟩) (y := si) hie
        simp [hbeq, hany]
      | true =>
        have hla : si.idx.lookup a = some k := by
          rw [← idxEquiv_lookup_eq hie a]
          exact hlz
        obtain ⟨i, hli, _, _, hcnt⟩ := scF_data_some_elim hdi
        rw [hla] at hli
        injection hli with hli
        subst hli
        have hzc : (rows.map (fun r => r.2.count))[k]? = some dj.count := by
          rw [List.getElem?_map, hbd]
          simp [hbd2]
        have hne : (rows.map (fun r => r.2.count)) ≠ si.cnt := by
          intro he
          rw [he, hcnt] at hzc
          injection hzc with hzc
          omega
        have hbeq := scF_beq_false_of_cnt (x :=
          ⟨enumIdx (sortedUnion (keysOf si.idx) (keysOf sj.idx)),
           rows.map (fun r => r.2.os), rows.map (fun r => r.2.sid),
           rows.map (fun r => r.2.count)⟩) (y := si) hne
        simp [hbeq, hany]
    · have hbeq := scF_beq_false_of_idx (x :=
        ⟨enumIdx (sortedUnion (keysOf si.idx) (keysOf sj.idx)),
         rows.map (fun r => r.2.os), rows.map (fun r => r.2.sid),
         rows.map (fun r => r.2.count)⟩) (y := si)
        (idxEquiv_false_of_lookup (by rw [hlz, hnone]; simp))
      simp [hbeq, hany]

/-- With a NaN-free `sysconf_i` the final assertion of
`SystemConfig.merge` passes: the merge returns the computed result
instead of raising. -/
theorem mergeF_assert_passes {si sj z : SystemConfigF}
    (hnf : nanFree si.cs = true)
    (h : SystemConfigF.mergeCore si sj = some z) :
    SystemConfigF.merge si sj = some z := by
  obtain ⟨rows, hm, _⟩ := mergeCoreF_some_elim h
  have hmod : SystemConfigF.mergeModified si sj
      = some (rows.any Prod.fst) := by
    simp [SystemConfigF.mergeModified, hm]
  have hiff := mergeF_beq_iff_not_modified hnf h
  cases hany : rows.any Prod.fst with
  | false =>
    rw [hany] at hmod
    have hbeq : SystemConfigF.beq z si = true := hiff.mpr hmod
    simp [SystemConfigF.merge, h, hmod, hbeq]
  | true =>
    rw [hany] at hmod
    have hbeq : SystemConfigF.beq z si = false := by
      cases hb : SystemConfigF.beq z si
      · rfl
      · have h2 := hiff.mp hb
        rw [hmod] at h2
        exact absurd (Option.some.inj h2) (by simp)
    simp [SystemConfigF.merge, h, hmod, hbeq]

/-- The `Candidate.merge` half of the identity assertion over floats:
provided `candidate_i`'s performance and cluster schedule are NaN-free,
the merge result is Python-equal to `candidate_i` exactly when the
default `candidate = candidate_i` survived every branch. -/
theorem cmergeF_beq_iff_kept {ci cj : CandidateF} {me : String}
    {f : List (List PyFloat) → PyFloat} {r : CandidateF}
    (hp : ci.perf.isNan = false) (hnf : nanFree ci.cs = true)
    (h : CandidateF.mergeCore ci cj me f = some r) :
    (CandidateF.beq r ci = true ↔ CandidateF.mergeKept ci cj = true) := by
  cases hss : keysetSSubset (keysOf ci.idx) (keysOf cj.idx) with
  | true =>
    simp only [CandidateF.mergeCore, hss, if_true, Option.some.injEq] at h
    subst h
    have hd := hss
    simp only [keysetSSubset, Bool.and_eq_true, Bool.not_eq_true'] at hd
    obtain ⟨b, hbkj, hbki⟩ := keysetSubset_false_iff.mp hd.2
    have hbeq := candF_beq_false_of_idx (x := cj) (y := ci)
      (idxEquiv_false_of_lookup (lookup_ne_of_mem_not_mem hbkj hbki))
    simp [hbeq, CandidateF.mergeKept, hss]
  | false =>
    cases heq : keysetEq (keysOf ci.idx) (keysOf cj.idx) with
    | true =>
      simp only [CandidateF.mergeCore, hss, Bool.false_eq_true, if_false,
        heq, if_true] at h
      by_cases hgt : pyGtB cj.perf ci.perf = true
      · rw [if_pos hgt, Option.some.injEq] at h
        subst h
        have hbeq := candF_beq_false_of_perf (x := cj) (y := ci)
          (pyEqB_false_of_gt hgt)
        simp [hbeq, CandidateF.mergeKept, hss, heq, hgt]
      · rw [if_neg hgt] at h
        by_cases hpe : pyEqB cj.perf ci.perf = true
        · rw [if_pos hpe] at h
          cases hlt : strLtB cj.agent ci.agent with
          | true =>
            rw [hlt, if_pos rfl, Option.some.injEq] at h
            subst h
            have hbeq := candF_beq_false_of_agent (x := cj) (y := ci)
              (strLtB_ne hlt)
            simp [hbeq, CandidateF.mergeKept, hss, heq, hgt, hpe, hlt]
          | false =>
            rw [hlt] at h
            simp only [Bool.false_eq_true, if_false, Option.some.injEq] at h
            subst h
            simp [candF_beq_refl hp hnf, CandidateF.mergeKept, hss, heq,
              hgt, hpe, hlt]
        · rw [if_neg hpe, Option.some.injEq] at h
          subst h
          simp [candF_beq_refl hp hnf, CandidateF.mergeKept, hss, heq,
            hgt, hpe]
    | false =>
      cases hns : keysetSubset (keysOf cj.idx) (keysOf ci.idx) with
      | false =>
        cases hm : mapOption
            (fun a => if (keysOf ci.idx).contains a then ci.data a
              else cj.data a)
            (sortedUnion (keysOf ci.idx) (keysOf cj.idx)) with
        | none =>
          simp only [CandidateF.mergeCore, hss, heq, hns, Bool.false_eq_true,
            if_false, Bool.not_false, if_true] at h
          rw [hm] at h
          exact absurd h (by simp)
        | some rows =>
          simp only [CandidateF.mergeCore, hss, heq, hns, hm,
            Bool.false_eq_true, if_false, Bool.not_false, if_true,
            Option.some.injEq] at h
          subst h
          obtain ⟨b, hbkj, hbki⟩ := keysetSubset_false_iff.mp hns
          have hbmem : b ∈ keysOf (enumIdx
              (sortedUnion (keysOf ci.idx) (keysOf cj.idx))) := by
            rw [keysOf_enumIdx]
            exact mem_sortedUnion.mpr (Or.inr hbkj)
          have hbeq := candF_beq_false_of_idx (x :=
            ⟨me, enumIdx (sortedUnion (keysOf ci.idx) (keysOf cj.idx)),
             rows.map (fun d => d.os), rows.map (fun d => d.sid),
             f (rows.map (fun d => d.os))⟩) (y := ci)
            (idxEquiv_false_of_lookup (lookup_ne_of_mem_not_mem hbmem hbki))
          simp [hbeq, CandidateF.mergeKept, hss, heq, hns]
      | true =>
        simp only [CandidateF.mergeCore, hss, heq, hns, Bool.false_eq_true,
          if_false, Bool.not_true, Option.some.injEq] at h
        subst h
        simp [candF_beq_refl hp hnf, CandidateF.mergeKept, hss, heq, hns]

/-- With a NaN-free `candidate_i` the final assertion of
`Candidate.merge` passes. -/
theorem cmergeF_assert_passes {ci cj : CandidateF} {me : String}
    {f : List (List PyFloat) → PyFloat} {r : CandidateF}
    (hp : ci.perf.isNan = false) (hnf : nanFree ci.cs = true)
    (h : CandidateF.mergeCore ci cj me f = some r) :
    CandidateF.merge ci cj me f = some r := by
  have hiff := cmergeF_beq_iff_kept hp hnf h
  cases hk : CandidateF.mergeKept ci cj with
  | true =>
    have hbeq : CandidateF.beq r ci = true := hiff.mpr hk
    simp [CandidateF.merge, h, hbeq, hk]
  | false =>
    have hbeq : CandidateF.beq r ci = false := by
      cases hb : CandidateF.beq r ci
      · rfl
      · rw [hiff.mp hb] at hk
        exact absurd hk (by simp)
    simp [CandidateF.merge, h, hbeq, hk]

/-- C2, counterexample to the original claim: with NaN data the identity
assertion itself fails.  For the one-agent system configuration `x`
whose only schedule value is NaN, `SystemConfig.merge(x, x)` takes the
unmodified path and returns the very instance `x` (`mergeModified` is
`false`), yet `x == x` is `False` because `np.array_equal` is not
reflexive at NaN — so structural equality does not coincide with
identity and `assert (sysconf == sysconf_i) == (sysconf is sysconf_i)`
raises `AssertionError` (the merge with the assertion embedded is
`none`).  Likewise `Candidate.merge(c, c, me, f)` for a candidate `c`
with NaN performance: `perf > perf` and `perf == perf` are both `False`,
the default `candidate = candidate_i` survives, and the final assertion
fails. -/
theorem c2_counterexample_nan :
    (SystemConfigF.mergeCore
        ⟨[("a", 0)], [[PyFloat.nan]], [1], [0]⟩
        ⟨[("a", 0)], [[PyFloat.nan]], [1], [0]⟩
      = some ⟨[("a", 0)], [[PyFloat.nan]], [1], [0]⟩ ∧
     SystemConfigF.mergeModified
        ⟨[("a", 0)], [[PyFloat.nan]], [1], [0]⟩
        ⟨[("a", 0)], [[PyFloat.nan]], [1], [0]⟩ = some false ∧
     SystemConfigF.beq ⟨[("a", 0)], [[PyFloat.nan]], [1], [0]⟩
        ⟨[("a", 0)], [[PyFloat.nan]], [1], [0]⟩ = false ∧
     SystemConfigF.merge
        ⟨[("a", 0)], [[PyFloat.nan]], [1], [0]⟩
        ⟨[("a", 0)], [[PyFloat.nan]], [1], [0]⟩ = none) ∧
    (CandidateF.mergeCore
        ⟨"a", [("a", 0)], [[PyFloat.val 1]], [1], PyFloat.nan⟩
        ⟨"a", [("a", 0)], [[PyFloat.val 1]], [1], PyFloat.nan⟩
        "controller" (fun _ => PyFloat.val 0)
      = some ⟨"a", [("a", 0)], [[PyFloat.val 1]], [1], PyFloat.nan⟩ ∧
     CandidateF.mergeKept
        ⟨"a", [("a", 0)], [[PyFloat.val 1]], [1], PyFloat.nan⟩
        ⟨"a", [("a", 0)], [[PyFloat.val 1]], [1], PyFloat.nan⟩ = true ∧
     CandidateF.beq ⟨"a", [("a", 0)], [[PyFloat.val 1]], [1], PyFloat.nan⟩
        ⟨"a", [("a", 0)], [[PyFloat.val 1]], [1], PyFloat.nan⟩ = false ∧
     CandidateF.merge
        ⟨"a", [("a", 0)], [[PyFloat.val 1]], [1], PyFloat.nan⟩
        ⟨"a", [("a", 0)], [[PyFloat.val 1]], [1], PyFloat.nan⟩
        "controller" (fun _ => PyFloat.val 0) = none) := by
  decide

/-- C2 (amended): restricted to NaN-free data the claim holds over the
float-faithful merges — whenever the merge body produces a result, that
result is structurally equal (`__eq__`) to the first input if and only
if the merge returned that very instance, and the final assertion
passes, i.e. the merge returns the computed result instead of raising.
For `SystemConfig.merge` it suffices that `sysconf_i`'s cluster schedule
is NaN-free; for `Candidate.merge` that `candidate_i`'s performance and
cluster schedule are. -/
theorem c2_merge_equality_iff_identity_amended :
    (∀ si sj z : SystemConfigF, nanFree si.cs = true →
      SystemConfigF.mergeCore si sj = some z →
      (SystemConfigF.merge si sj = some z ∧
        (SystemConfigF.beq z si = true ↔
          SystemConfigF.mergeModified si sj = some false))) ∧
    (∀ (ci cj : CandidateF) (me : String)
      (f : List (List PyFloat) → PyFloat) (r : CandidateF),
      ci.perf.isNan = false → nanFree ci.cs = true →
      CandidateF.mergeCore ci cj me f = some r →
      (CandidateF.merge ci cj me f = some r ∧
        (CandidateF.beq r ci = true ↔
          CandidateF.mergeKept ci cj = true))) :=
  ⟨fun _ _ _ hnf h =>
    ⟨mergeF_assert_passes hnf h, mergeF_beq_iff_not_modified hnf h⟩,
   fun _ _ _ _ _ hp hnf h =>
    ⟨cmergeF_assert_passes hp hnf h, cmergeF_beq_iff_kept hp hnf h⟩⟩

/-- Witness for the amended C2: a NaN-free modified system-configuration
merge (result not equal to the first input) and a NaN-free tie-break
candidate merge that keeps the first input, with the assertion passing
in both. -/
theorem c2_merge_equality_iff_identity_amended_witness :
    (SystemConfigF.merge ⟨[("a", 0)], [[PyFloat.val 1]], [1], [0]⟩
        ⟨[("b", 0)], [[PyFloat.val 2]], [2], [0]⟩
      = some ⟨[("a", 0), ("b", 1)], [[PyFloat.val 1], [PyFloat.val 2]],
              [1, 2], [0, 0]⟩ ∧
      (SystemConfigF.beq
          ⟨[("a", 0), ("b", 1)], [[PyFloat.val 1], [PyFloat.val 2]],
           [1, 2], [0, 0]⟩
          ⟨[("a", 0)], [[PyFloat.val 1]], [1], [0]⟩ = true ↔
        SystemConfigF.mergeModified ⟨[("a", 0)], [[PyFloat.val 1]], [1], [0]⟩
          ⟨[("b", 0)], [[PyFloat.val 2]], [2], [0]⟩ = some false)) ∧
    (CandidateF.merge ⟨"a", [("x", 0)], [[PyFloat.val 1]], [1],
          PyFloat.val (-3)⟩
        ⟨"b", [("x", 0)], [[PyFloat.val 1]], [1], PyFloat.val (-3)⟩
        "me" (fun _ => PyFloat.val 0)
      = some ⟨"a", [("x", 0)], [[PyFloat.val 1]], [1], PyFloat.val (-3)⟩ ∧
      (CandidateF.beq
          ⟨"a", [("x", 0)], [[PyFloat.val 1]], [1], PyFloat.val (-3)⟩
          ⟨"a", [("x", 0)], [[PyFloat.val 1]], [1], PyFloat.val (-3)⟩
          = true ↔
        CandidateF.mergeKept
          ⟨"a", [("x", 0)], [[PyFloat.val 1]], [1], PyFloat.val (-3)⟩
          ⟨"b", [("x", 0)], [[PyFloat.val 1]], [1], PyFloat.val (-3)⟩
          = true)) :=
  ⟨c2_merge_equality_iff_identity_amended.1
      ⟨[("a", 0)], [[PyFloat.val 1]], [1], [0]⟩
      ⟨[("b", 0)], [[PyFloat.val 2]], [2], [0]⟩
      ⟨[("a", 0), ("b", 1)], [[PyFloat.val 1], [PyFloat.val 2]],
       [1, 2], [0, 0]⟩ (by decide) (by decide),
   c2_merge_equality_iff_identity_amended.2
      ⟨"a", [("x", 0)], [[PyFloat.val 1]], [1], PyFloat.val (-3)⟩
      ⟨"b", [("x", 0)], [[PyFloat.val 1]], [1], PyFloat.val (-3)⟩
      "me" (fun _ => PyFloat.val 0)
      ⟨"a", [("x", 0)], [[PyFloat.val 1]], [1], PyFloat.val (-3)⟩
      (by decide) (by decide) (by decide)⟩

/-! ### Claim C1: the observer's solution determination -/

theorem cmerge_beq_keep {c x : Candidate} {me : String}
    {f : List (List Int) → Int} (hbeq : Candidate.beq x c = true) :
    Candidate.merge c x me f = some c := by
  simp only [Candidate.beq, Bool.and_eq_true, beq_iff_eq] at hbeq
  obtain ⟨⟨⟨⟨hag, hidx⟩, _⟩, hperf⟩, _⟩ := hbeq
  have hmem : ∀ b, b ∈ keysOf c.idx ↔ b ∈ keysOf x.idx := by
    intro b
    unfold keysOf
    rw [← lookup_isSome_iff, ← lookup_isSome_iff,
      idxEquiv_lookup_eq hidx b]
  have heq : keysetEq (keysOf c.idx) (keysOf x.idx) = true := by
    simp only [keysetEq, Bool.and_eq_true]
    exact ⟨keysetSubset_iff.mpr (fun b hb => (hmem b).mp hb),
      keysetSubset_iff.mpr (fun b hb => (hmem b).mpr hb)⟩
  have hss : keysetSSubset (keysOf c.idx) (keysOf x.idx) = false := by
    simp only [keysetEq, Bool.and_eq_true] at heq
    simp [keysetSSubset, heq.1, heq.2]
  simp only [Candidate.merge, hss, Bool.false_eq_true, if_false, heq, if_true]
  rw [if_neg (by omega), if_pos (by simp [hperf]), hag, strLtB_irrefl]
  simp

theorem foldl_merge_all_beq {me : String} {f : List (List Int) → Int} :
    ∀ {rest : List Candidate} {c : Candidate},
      (∀ x ∈ rest, Candidate.beq x c = true) →
      rest.foldlM (fun a b => Candidate.merge a b me f) c = some c
  | [], c, _ => rfl
  | x :: xs, c, hall => by
    rw [List.foldlM_cons, cmerge_beq_keep (hall x (List.mem_cons_self x xs))]
    exact foldl_merge_all_beq (fun y hy => hall y (List.mem_cons_of_mem x hy))

/-- C1: once the observer holds the final candidates of all registered
agents, `_get_solution` determines the solution as follows.  In the
detector-terminated branch all buffered candidates are equal (the
invariant the code asserts) and the first is returned; in the timeout
branch the solution is the left-to-right reduction of the buffer by
`Candidate.merge(·, ·, "controller", perf_fn)` with `perf_fn` the
objective function over the session target and weights.  The third
conjunct records that the two branches agree whenever the equality
invariant holds, so the solution value is the first candidate in every
detector-terminated negotiation even though the code's `_terminated` flag
is never set. -/
theorem c1_observer_solution (ts weights : List Int) (c : Candidate)
    (rest : List Candidate) :
    ((∀ x ∈ rest, Candidate.beq x c = true) →
      get_solution true ts weights (c :: rest) = some c) ∧
    (get_solution false ts weights (c :: rest)
      = rest.foldlM (fun a b => Candidate.merge a b "controller"
          (objective_function ts weights)) c) ∧
    ((∀ x ∈ rest, Candidate.beq x c = true) →
      get_solution false ts weights (c :: rest) = some c) := by
  refine ⟨?_, rfl, ?_⟩
  · intro hall
    have hb : rest.all (fun x => Candidate.beq x c) = true :=
      List.all_eq_true.mpr hall
    simp [get_solution, hb]
  · intro hall
    exact foldl_merge_all_beq hall

/-- Witness for C1: two equal buffered candidates; both branches return
the first. -/
theorem c1_observer_solution_witness :
    get_solution true [1] [1]
        [⟨"a", [("a", 0)], [[1]], [1], 0⟩, ⟨"a", [("a", 0)], [[1]], [1], 0⟩]
      = some ⟨"a", [("a", 0)], [[1]], [1], 0⟩ ∧
    get_solution false [1] [1]
        [⟨"a", [("a", 0)], [[1]], [1], 0⟩, ⟨"a", [("a", 0)], [[1]], [1], 0⟩]
      = some ⟨"a", [("a", 0)], [[1]], [1], 0⟩ :=
  ⟨(c1_observer_solution [1] [1] ⟨"a", [("a", 0)], [[1]], [1], 0⟩
      [⟨"a", [("a", 0)], [[1]], [1], 0⟩]).1 (by decide),
   (c1_observer_solution [1] [1] ⟨"a", [("a", 0)], [[1]], [1], 0⟩
      [⟨"a", [("a", 0)], [[1]], [1], 0⟩]).2.2 (by decide)⟩

/-! ### Claim C4: `_decide` updates the sysconf exactly on a sid change -/

theorem update_data_self {sc u : SystemConfig} {agent : String}
    {os : List Int} {sid : Int} (h : sc.update agent os sid = some u) :
    ∃ dsc, sc.data agent = some dsc ∧
      u.data agent = some ⟨os, sid, dsc.count + 1⟩ := by
  cases hl : sc.idx.lookup agent with
  | none => simp [SystemConfig.update, hl] at h
  | some i =>
    cases hcs : sc.cs[i]? with
    | none => simp [SystemConfig.update, hl, hcs] at h
    | some row =>
      cases hsid : sc.sids[i]? with
      | none => simp [SystemConfig.update, hl, hcs, hsid] at h
      | some s0 =>
        cases hcnt : sc.cnt[i]? with
        | none => simp [SystemConfig.update, hl, hcs, hsid, hcnt] at h
        | some cn =>
          by_cases hlen : os.length = row.length
          · simp only [SystemConfig.update, hl, hcs, hsid, hcnt,
              if_pos hlen, Option.some.injEq] at h
            subst h
            refine ⟨⟨row, s0, cn⟩,
              sc_data_some_intro hl hcs hsid hcnt, ?_⟩
            exact sc_data_some_intro hl
              (List.getElem?_set_self (List.getElem?_eq_some.mp hcs).1)
              (List.getElem?_set_self (List.getElem?_eq_some.mp hsid).1)
              (List.getElem?_set_self (List.getElem?_eq_some.mp hcnt).1)
          · simp [SystemConfig.update, hl, hcs, hsid, hcnt, hlen] at h

theorem cupdate_data_self {c u : Candidate} {agent : String} {os : List Int}
    {sid : Int} {f : List (List Int) → Int}
    (h : Candidate.update c agent os sid f = some u) :
    u.data agent = some ⟨os, sid⟩ := by
  cases hl : c.idx.lookup agent with
  | none => simp [Candidate.update, hl] at h
  | some i =>
    cases hcs : c.cs[i]? with
    | none => simp [Candidate.update, hl, hcs] at h
    | some row =>
      cases hsid : c.sids[i]? with
      | none => simp [Candidate.update, hl, hcs, hsid] at h
      | some s0 =>
        by_cases hlen : os.length = row.length
        · simp only [Candidate.update, hl, hcs, hsid, if_pos hlen,
            Option.some.injEq] at h
          subst h
          exact cand_data_some_intro hl
            (List.getElem?_set_self (List.getElem?_eq_some.mp hcs).1)
            (List.getElem?_set_self (List.getElem?_eq_some.mp hsid).1)
        · simp [Candidate.update, hl, hcs, hsid, hlen] at h

theorem decideFinal_candidate {sc sc' : SystemConfig} {csid : Int}
    {name : String} {bos : List Int} {bsid : Int} {cand c' : Candidate}
    (h : Planner.decideFinal sc csid name bos bsid cand = some (sc', c')) :
    c' = cand := by
  by_cases hne : csid ≠ bsid
  · cases hupd : sc.update name bos bsid with
    | none => simp [Planner.decideFinal, hne, hupd] at h
    | some u =>
      simp only [Planner.decideFinal, hne, if_true, hupd, ne_eq,
        not_false_eq_true, Option.some.injEq, Prod.mk.injEq] at h
      exact h.2.symm
  · push_neg at hne
    simp only [Planner.decideFinal, hne, ne_eq, not_true_eq_false, if_false,
      Option.some.injEq, Prod.mk.injEq] at h
    exact h.2.symm

/-- C4: with `(os_best, sid_best)` the row the returned candidate holds
for the deciding agent, `_decide` records a new self row through
`sysconf.update` — incrementing the agent's counter by exactly one — if
and only if `sid_best` differs from the sid the input system configuration
holds for the agent; otherwise the input instance is returned unchanged. -/
theorem c4_decide_sysconf_update (f : List (List Int) → Int)
    (ps : List (Int × Int × List Int)) (name : String) (sc : SystemConfig)
    (c : Candidate) (sc' : SystemConfig) (c' : Candidate)
    (h : Planner.decide f ps name sc c = some (sc', c')) :
    ∃ d dsc, c'.data name = some d ∧ sc.data name = some dsc ∧
      (d.sid ≠ dsc.sid → sc.update name d.os d.sid = some sc' ∧
        ∃ dz, sc'.data name = some dz ∧ dz.count = dsc.count + 1) ∧
      (d.sid = dsc.sid → sc' = sc) := by
  have final : ∀ (bos : List Int) (bsid : Int) (cand : Candidate)
      (dsc : SCData),
      Planner.decideFinal sc dsc.sid name bos bsid cand = some (sc', c') →
      sc.data name = some dsc →
      c'.data name = some ⟨bos, bsid⟩ →
      ∃ d dsc', c'.data name = some d ∧ sc.data name = some dsc' ∧
        (d.sid ≠ dsc'.sid → sc.update name d.os d.sid = some sc' ∧
          ∃ dz, sc'.data name = some dz ∧ dz.count = dsc'.count + 1) ∧
        (d.sid = dsc'.sid → sc' = sc) := by
    intro bos bsid cand dsc hf hdsc hcd
    by_cases hne : dsc.sid ≠ bsid
    · simp only [Planner.decideFinal, if_pos hne] at hf
      cases hupd : sc.update name bos bsid with
      | none =>
        simp only [hupd] at hf
        exact absurd hf (by simp)
      | some u =>
        simp only [hupd, Option.some.injEq, Prod.mk.injEq] at hf
        obtain ⟨rfl, rfl⟩ := hf
        obtain ⟨dsc', hdsc', hu⟩ := update_data_self hupd
        rw [hdsc] at hdsc'
        injection hdsc' with hdsc'
        subst hdsc'
        exact ⟨⟨bos, bsid⟩, dsc, hcd, hdsc,
          fun _ => ⟨hupd, ⟨_, hu, rfl⟩⟩, fun hsid => absurd hsid.symm hne⟩
    · push_neg at hne
      simp only [Planner.decideFinal, hne, ne_eq, not_true_eq_false,
        if_false, Option.some.injEq, Prod.mk.injEq] at hf
      obtain ⟨rfl, rfl⟩ := hf
      exact ⟨⟨bos, bsid⟩, dsc, hcd, hdsc,
        fun hsid => absurd hne.symm hsid, fun _ => rfl⟩
  cases hdsc : sc.data name with
  | none => simp [Planner.decide, hdsc] at h
  | some dsc =>
    cases hcb : c.data name with
    | none => simp [Planner.decide, hdsc, hcb] at h
    | some cb =>
      cases hnos : get_new_os f ps c.perf sc name with
      | none => simp [Planner.decide, hdsc, hcb, hnos] at h
      | some nos =>
        cases nos with
        | none =>
          simp only [Planner.decide, hdsc, hcb, hnos] at h
          have hcc : c' = c := decideFinal_candidate h
          exact hdsc ▸ final cb.os cb.sid c dsc h hdsc (by rw [hcc, hcb])
        | some pair =>
          obtain ⟨new_os, new_sid⟩ := pair
          cases hupd2 : sc.update name new_os new_sid with
          | none =>
            simp [Planner.decide, hdsc, hcb, hnos, hupd2] at h
          | some new_s =>
            cases hnc : Candidate.update ⟨name, new_s.idx, new_s.cs,
                new_s.sids, 0⟩ name new_os new_sid f with
            | none =>
              simp [Planner.decide, hdsc, hcb, hnos, hupd2, hnc] at h
            | some nc =>
              by_cases hperf : nc.perf > c.perf
              · simp only [Planner.decide, hdsc, hcb, hnos, hupd2, hnc,
                  if_pos hperf] at h
                have hcc : c' = nc := decideFinal_candidate h
                exact hdsc ▸ final new_os new_sid nc dsc h hdsc
                  (by rw [hcc]; exact cupdate_data_self hnc)
              · simp only [Planner.decide, hdsc, hcb, hnos, hupd2, hnc,
                  if_neg hperf] at h
                have hcc : c' = c := decideFinal_candidate h
                exact hdsc ▸ final cb.os cb.sid c dsc h hdsc
                  (by rw [hcc, hcb])

/-- Witness for C4: a two-schedule catalogue where the better schedule is
adopted and the sysconf row is re-recorded with counter one higher. -/
theorem c4_decide_sysconf_update_witness :
    ∃ d dsc,
      (Candidate.mk "a" [("a", 0)] [[1]] [1] 0).data "a" = some d ∧
      (SystemConfig.mk [("a", 0)] [[0]] [0] [0]).data "a" = some dsc ∧
      (d.sid ≠ dsc.sid →
        SystemConfig.update ⟨[("a", 0)], [[0]], [0], [0]⟩ "a" d.os d.sid
            = some ⟨[("a", 0)], [[1]], [1], [1]⟩ ∧
          ∃ dz, (SystemConfig.mk [("a", 0)] [[1]] [1] [1]).data "a" = some dz ∧
            dz.count = dsc.count + 1) ∧
      (d.sid = dsc.sid →
        (⟨[("a", 0)], [[1]], [1], [1]⟩ : SystemConfig)
          = ⟨[("a", 0)], [[0]], [0], [0]⟩) :=
  c4_decide_sysconf_update (objective_function [1] [1])
    [(0, 0, [0]), (1, 0, [1])] "a" ⟨[("a", 0)], [[0]], [0], [0]⟩
    ⟨"a", [("a", 0)], [[0]], [0], -1⟩ ⟨[("a", 0)], [[1]], [1], [1]⟩
    ⟨"a", [("a", 0)], [[1]], [1], 0⟩ (by decide)

/-! ### Ring indices: Python's nonnegative `%` on `i - 1` and `i + 1` -/

/-- Index of the left ring neighbor, `(i - 1) % n` with Python semantics. -/
def leftIdx (n k : Nat) : Nat := ((((k : Int) - 1)) % (n : Int)).toNat

/-- Index of the right ring neighbor, `(i + 1) % n` with Python
semantics. -/
def rightIdx (n k : Nat) : Nat := ((((k : Int) + 1)) % (n : Int)).toNat

theorem leftIdx_lt {n : Nat} (hn : 0 < n) (k : Nat) : leftIdx n k < n := by
  unfold leftIdx
  have h1 : (0 : Int) ≤ ((k : Int) - 1) % (n : Int) :=
    Int.emod_nonneg _ (by exact_mod_cast Nat.pos_iff_ne_zero.mp hn)
  have h2 : ((k : Int) - 1) % (n : Int) < (n : Int) :=
    Int.emod_lt_of_pos _ (by exact_mod_cast hn)
  omega

theorem rightIdx_lt {n : Nat} (hn : 0 < n) (k : Nat) : rightIdx n k < n := by
  unfold rightIdx
  have h1 : (0 : Int) ≤ ((k : Int) + 1) % (n : Int) :=
    Int.emod_nonneg _ (by exact_mod_cast Nat.pos_iff_ne_zero.mp hn)
  have h2 : ((k : Int) + 1) % (n : Int) < (n : Int) :=
    Int.emod_lt_of_pos _ (by exact_mod_cast hn)
  omega

theorem rightIdx_eq_succ {n k : Nat} (h : k + 1 < n) : rightIdx n k = k + 1 := by
  unfold rightIdx
  rw [Int.emod_eq_of_lt (by omega) (by exact_mod_cast h)]
  omega

theorem rightIdx_eq_zero {n k : Nat} (h : k + 1 = n) : rightIdx n k = 0 := by
  unfold rightIdx
  have hc : ((k : Int) + 1) = (n : Int) := by exact_mod_cast h
  rw [hc, Int.emod_self]
  rfl

theorem leftIdx_eq_pred {n k : Nat} (hk : 0 < k) (h : k < n) :
    leftIdx n k = k - 1 := by
  unfold leftIdx
  rw [Int.emod_eq_of_lt (by omega) (by omega)]
  omega

theorem leftIdx_zero {n : Nat} (hn : 0 < n) : leftIdx n 0 = n - 1 := by
  have h1 : (((0 : Nat) : Int) - 1) % (n : Int) = (n : Int) - 1 := by
    have h2 := Int.add_mul_emod_self_left (-1 : Int) (n : Int) 1
    have h3 : ((n : Int) - 1) % (n : Int) = (n : Int) - 1 :=
      Int.emod_eq_of_lt (by omega) (by omega)
    have h4 : ((-1 : Int) + (n : Int) * 1) = (n : Int) - 1 := by ring
    rw [h4] at h2
    have h5 : (((0 : Nat) : Int) - 1) = (-1 : Int) := by norm_num
    rw [h5, ← h2]
    exact h3
  unfold leftIdx
  rw [h1]
  omega

theorem rightIdx_ne {n k : Nat} (hk : k < n) (hn : 2 ≤ n) :
    rightIdx n k ≠ k := by
  by_cases h : k + 1 < n
  · rw [rightIdx_eq_succ h]; omega
  · have : k + 1 = n := by omega
    rw [rightIdx_eq_zero this]; omega

theorem leftIdx_ne {n k : Nat} (hk : k < n) (hn : 2 ≤ n) : leftIdx n k ≠ k := by
  by_cases h : 0 < k
  · rw [leftIdx_eq_pred h hk]; omega
  · have : k = 0 := by omega
    subst this
    rw [leftIdx_zero (by omega)]; omega

theorem rightIdx_leftIdx {n k : Nat} (hk : k < n) (hn : 2 ≤ n) :
    rightIdx n (leftIdx n k) = k := by
  by_cases h : 0 < k
  · rw [leftIdx_eq_pred h hk, rightIdx_eq_succ (by omega)]
    omega
  · have hk0 : k = 0 := by omega
    subst hk0
    rw [leftIdx_zero (by omega), rightIdx_eq_zero (by omega)]

theorem leftIdx_rightIdx {n k : Nat} (hk : k < n) (hn : 2 ≤ n) :
    leftIdx n (rightIdx n k) = k := by
  by_cases h : k + 1 < n
  · rw [rightIdx_eq_succ h, leftIdx_eq_pred (by omega) (by omega)]
    omega
  · have hkn : k + 1 = n := by omega
    rw [rightIdx_eq_zero hkn, leftIdx_zero (by omega)]
    omega

/-! ### Closed form of the ring construction -/

theorem foldl_ringStep_frame (addr : String → String) (l : List String)
    (n : Nat) :
    ∀ (xs : List (Nat × String)) (t : String → List String) (a : String),
      (∀ p ∈ xs, p.2 ≠ a) →
      (xs.foldl (buildRingStep addr l n) t) a = t a
  | [], _, _, _ => rfl
  | p :: xs, t, a, h => by
    rw [List.foldl_cons,
      foldl_ringStep_frame addr l n xs _ a
        (fun q hq => h q (List.mem_cons_of_mem p hq))]
    simp only [buildRingStep]
    exact Function.update_noteq
      (Ne.symm (h p (List.mem_cons_self p xs))) _ _

theorem foldl_ringStep_at (addr : String → String) (l : List String)
    (n : Nat) :
    ∀ (xs : List (Nat × String)) (t : String → List String) (i : Nat)
      (a : String), (i, a) ∈ xs → (xs.map Prod.snd).Nodup →
      (xs.foldl (buildRingStep addr l n) t) a
        = List.insert (addr (l.getD (((((i : Int)) + 1) % (n : Int)).toNat) a))
            (List.insert (addr (l.getD (((((i : Int)) - 1) % (n : Int)).toNat) a))
              (t a))
  | [], _, _, _, h, _ => absurd h (List.not_mem_nil _)
  | p :: xs, t, i, a, hmem, hnd => by
    rw [List.map_cons, List.nodup_cons] at hnd
    rw [List.foldl_cons]
    rcases List.mem_cons.mp hmem with heq | htail
    · obtain rfl := heq.symm
      have hnot : ∀ q ∈ xs, q.2 ≠ a := by
        intro q hq he
        have hq2 : q.2 ∈ xs.map Prod.snd := List.mem_map_of_mem Prod.snd hq
        rw [he] at hq2
        exact hnd.1 hq2
      rw [foldl_ringStep_frame addr l n xs _ a hnot]
      simp only [buildRingStep, Function.update_same]
    · have hpa : p.2 ≠ a := by
        intro he
        apply hnd.1
        rw [he]
        exact List.mem_map_of_mem Prod.snd htail
      rw [foldl_ringStep_at addr l n xs _ i a htail hnd.2]
      have hstep : (buildRingStep addr l n t p) a = t a := by
        simp only [buildRingStep]
        exact Function.update_noteq (Ne.symm hpa) _ _
      rw [hstep]

theorem mem_enumFrom_of_getElem? :
    ∀ {l : List String} {k : Nat} {a : String} (off : Nat),
      l[k]? = some a → (off + k, a) ∈ List.enumFrom off l
  | [], k, a, off, h => by simp at h
  | x :: xs, 0, a, off, h => by
    simp only [List.getElem?_cons_zero, Option.some.injEq] at h
    subst h
    simp [List.enumFrom]
  | x :: xs, k + 1, a, off, h => by
    simp only [List.getElem?_cons_succ] at h
    have hrec := mem_enumFrom_of_getElem? (off + 1) h
    simp only [List.enumFrom, List.mem_cons]
    right
    have harr : off + 1 + k = off + (k + 1) := by omega
    rw [← harr]
    exact hrec

theorem mem_enum_of_getElem? {l : List String} {k : Nat} {a : String}
    (h : l[k]? = some a) : (k, a) ∈ l.enum := by
  have hrec := mem_enumFrom_of_getElem? 0 h
  simpa [List.enum] using hrec

theorem build_ring_at (addr : String → String) (l : List String) (n : Nat)
    (hnd : l.Nodup) {k : Nat} {a : String} (hk : l[k]? = some a)
    (t : String → List String) :
    build_ring addr l n t a
      = List.insert (addr (l.getD (rightIdx n k) a))
          (List.insert (addr (l.getD (leftIdx n k) a)) (t a)) := by
  unfold build_ring
  rw [foldl_ringStep_at addr l n l.enum t k a (mem_enum_of_getElem? hk)
    (by rw [List.enum_map_snd]; exact hnd)]
  rfl

theorem build_ring_not_mem (addr : String → String) (l : List String)
    (n : Nat) (t : String → List String) (a : String) (ha : a ∉ l) :
    build_ring addr l n t a = t a := by
  unfold build_ring
  apply foldl_ringStep_frame
  intro p hp he
  apply ha
  have hp2 : p.2 ∈ l.enum.map Prod.snd := List.mem_map_of_mem Prod.snd hp
  rw [List.enum_map_snd] at hp2
  rw [← he]
  exact hp2

theorem getD_in_range {l : List String} {i : Nat} (h : i < l.length)
    (d : String) : l.getD i d = l[i] := by
  rw [List.getD_eq_getElem?_getD, List.getElem?_eq_getElem h]
  rfl

theorem get_eq_of_getElem? {l : List String} {i : Nat} (h : i < l.length)
    {a : String} (hk : l[i]? = some a) : l.get ⟨i, h⟩ = a := by
  exact (List.getElem?_eq_some.mp hk).2

theorem mem_build_ring_iff (addr : String → String) (l : List String)
    (hnd : l.Nodup) (hn : 2 ≤ l.length) {k : Nat} {a : String}
    (hk : l[k]? = some a) (x : String) :
    (x ∈ build_ring addr l l.length (fun _ => []) a ↔
      x = addr (l.get ⟨rightIdx l.length k, rightIdx_lt (by omega) k⟩) ∨
      x = addr (l.get ⟨leftIdx l.length k, leftIdx_lt (by omega) k⟩)) := by
  rw [build_ring_at addr l l.length hnd hk,
    getD_in_range (rightIdx_lt (by omega) k) a,
    getD_in_range (leftIdx_lt (by omega) k) a]
  simp [List.mem_insert_iff, List.get_eq_getElem]

/-! ### The random extra connections preserve the topology contract -/

theorem add_random_cons (addr : String → String) (p : String × String)
    (cs : List (String × String)) (t : String → List String) :
    add_random_topology addr (p :: cs) t
      = add_random_topology addr cs
          (if p.1 = p.2 then t
           else
             Function.update
               (Function.update t p.1 (List.insert (addr p.2) (t p.1))) p.2
               (List.insert (addr p.1)
                 ((Function.update t p.1
                   (List.insert (addr p.2) (t p.1))) p.2))) := rfl

theorem random_step_mem (addr : String → String) (p : String × String)
    (t : String → List String) (hp : p.1 ≠ p.2) (x v : String) :
    (v ∈ (Function.update
        (Function.update t p.1 (List.insert (addr p.2) (t p.1))) p.2
        (List.insert (addr p.1)
          ((Function.update t p.1 (List.insert (addr p.2) (t p.1))) p.2))) x
      ↔ (v ∈ t x ∨ (x = p.1 ∧ v = addr p.2) ∨ (x = p.2 ∧ v = addr p.1))) := by
  by_cases hx2 : x = p.2
  · subst hx2
    rw [Function.update_same, Function.update_noteq (Ne.symm hp),
      List.mem_insert_iff]
    constructor
    · rintro (hv | hv)
      · exact Or.inr (Or.inr ⟨rfl, hv⟩)
      · exact Or.inl hv
    · rintro (hv | ⟨hx, _⟩ | ⟨_, hv⟩)
      · exact Or.inr hv
      · exact absurd hx.symm hp
      · exact Or.inl hv
  · rw [Function.update_noteq hx2]
    by_cases hx1 : x = p.1
    · subst hx1
      rw [Function.update_same, List.mem_insert_iff]
      constructor
      · rintro (hv | hv)
        · exact Or.inr (Or.inl ⟨rfl, hv⟩)
        · exact Or.inl hv
      · rintro (hv | ⟨_, hv⟩ | ⟨hx, _⟩)
        · exact Or.inr hv
        · exact Or.inl hv
        · exact absurd hx hp
    · rw [Function.update_noteq hx1]
      constructor
      · exact fun hv => Or.inl hv
      · rintro (hv | ⟨hx, _⟩ | ⟨hx, _⟩)
        · exact hv
        · exact absurd hx hx1
        · exact absurd hx hx2

theorem add_random_mono (addr : String → String) :
    ∀ (choices : List (String × String)) (t : String → List String)
      (x v : String), v ∈ t x → v ∈ add_random_topology addr choices t x
  | [], _, _, _, h => h
  | p :: cs, t, x, v, h => by
    rw [add_random_cons]
    apply add_random_mono addr cs _ x v
    by_cases hp : p.1 = p.2
    · rw [if_pos hp]; exact h
    · rw [if_neg hp, random_step_mem addr p t hp]
      exact Or.inl h

theorem add_random_irrefl (addr : String → String) (P : List String)
    (hinj : ∀ a ∈ P, ∀ b ∈ P, addr a = addr b → a = b) :
    ∀ (choices : List (String × String)) (t : String → List String),
      (∀ p ∈ choices, p.1 ∈ P ∧ p.2 ∈ P) →
      (∀ x ∈ P, addr x ∉ t x) →
      ∀ x ∈ P, addr x ∉ add_random_topology addr choices t x
  | [], _, _, hbase, x, hx => hbase x hx
  | p :: cs, t, hch, hbase, x, hx => by
    rw [add_random_cons]
    refine add_random_irrefl addr P hinj cs _
      (fun q hq => hch q (List.mem_cons_of_mem p hq)) ?_ x hx
    intro y hy
    by_cases hp : p.1 = p.2
    · rw [if_pos hp]; exact hbase y hy
    · rw [if_neg hp, random_step_mem addr p t hp]
      obtain ⟨hp1, hp2⟩ := hch p (List.mem_cons_self p cs)
      rintro (hv | ⟨rfl, hv⟩ | ⟨rfl, hv⟩)
      · exact hbase y hy hv
      · exact hp (hinj p.1 hp1 p.2 hp2 hv)
      · exact hp (hinj p.1 hp1 p.2 hp2 hv.symm)

theorem add_random_symm (addr : String → String) (P : List String)
    (hinj : ∀ a ∈ P, ∀ b ∈ P, addr a = addr b → a = b) :
    ∀ (choices : List (String × String)) (t : String → List String),
      (∀ p ∈ choices, p.1 ∈ P ∧ p.2 ∈ P) →
      (∀ x ∈ P, ∀ y ∈ P, (addr y ∈ t x ↔ addr x ∈ t y)) →
      ∀ x ∈ P, ∀ y ∈ P,
        (addr y ∈ add_random_topology addr choices t x ↔
          addr x ∈ add_random_topology addr choices t y)
  | [], _, _, hbase, x, hx, y, hy => hbase x hx y hy
  | p :: cs, t, hch, hbase, x, hx, y, hy => by
    rw [add_random_cons]
    refine add_random_symm addr P hinj cs _
      (fun q hq => hch q (List.mem_cons_of_mem p hq)) ?_ x hx y hy
    intro u hu v hv
    by_cases hp : p.1 = p.2
    · rw [if_pos hp]; exact hbase u hu v hv
    · obtain ⟨hp1, hp2⟩ := hch p (List.mem_cons_self p cs)
      rw [if_neg hp, random_step_mem addr p t hp,
        random_step_mem addr p t hp]
      constructor
      · rintro (hm | ⟨rfl, hm⟩ | ⟨rfl, hm⟩)
        · exact Or.inl ((hbase u hu v hv).mp hm)
        · exact Or.inr (Or.inr ⟨hinj v hv p.2 hp2 hm, rfl⟩)
        · exact Or.inr (Or.inl ⟨hinj v hv p.1 hp1 hm, rfl⟩)
      · rintro (hm | ⟨rfl, hm⟩ | ⟨rfl, hm⟩)
        · exact Or.inl ((hbase u hu v hv).mpr hm)
        · exact Or.inr (Or.inr ⟨hinj u hu p.2 hp2 hm, rfl⟩)
        · exact Or.inr (Or.inl ⟨hinj u hu p.1 hp1 hm, rfl⟩)

/-! ### Contract of the bare ring -/

theorem ring_irrefl (addr : String → String) (l : List String)
    (hnd : l.Nodup) (hn : 2 ≤ l.length)
    (hinj : ∀ a ∈ l, ∀ b ∈ l, addr a = addr b → a = b)
    {k : Nat} {x : String} (hk : l[k]? = some x) :
    addr x ∉ build_ring addr l l.length (fun _ => []) x := by
  intro hmem
  obtain ⟨hklt, hkv⟩ := List.getElem?_eq_some.mp hk
  have hxl : x ∈ l := List.mem_iff_getElem?.mpr ⟨k, hk⟩
  rw [mem_build_ring_iff addr l hnd hn hk] at hmem
  rcases hmem with hm | hm
  · have hrl : l.get ⟨rightIdx l.length k, rightIdx_lt (by omega) k⟩ ∈ l :=
      List.getElem_mem _
    have heq := hinj x hxl _ hrl hm
    have hkr : k = rightIdx l.length k :=
      (List.Nodup.getElem_inj_iff hnd).mp (by rw [hkv]; exact heq)
    exact rightIdx_ne hklt hn hkr.symm
  · have hll : l.get ⟨leftIdx l.length k, leftIdx_lt (by omega) k⟩ ∈ l :=
      List.getElem_mem _
    have heq := hinj x hxl _ hll hm
    have hkl : k = leftIdx l.length k :=
      (List.Nodup.getElem_inj_iff hnd).mp (by rw [hkv]; exact heq)
    exact leftIdx_ne hklt hn hkl.symm

theorem ring_symm (addr : String → String) (l : List String)
    (hnd : l.Nodup) (hn : 2 ≤ l.length)
    (hinj : ∀ a ∈ l, ∀ b ∈ l, addr a = addr b → a = b)
    {k : Nat} {x : String} (hk : l[k]? = some x) {y : String} (hy : y ∈ l)
    (hm : addr y ∈ build_ring addr l l.length (fun _ => []) x) :
    addr x ∈ build_ring addr l l.length (fun _ => []) y := by
  obtain ⟨hklt, hkv⟩ := List.getElem?_eq_some.mp hk
  rw [mem_build_ring_iff addr l hnd hn hk] at hm
  rcases hm with hm | hm
  · have hrl : l.get ⟨rightIdx l.length k, rightIdx_lt (by omega) k⟩ ∈ l :=
      List.getElem_mem _
    have hyv : y = l.get ⟨rightIdx l.length k, rightIdx_lt (by omega) k⟩ :=
      hinj y hy _ hrl hm
    have hky : l[rightIdx l.length k]? = some y := by
      rw [List.getElem?_eq_getElem (rightIdx_lt (by omega) k)]
      exact congrArg some hyv.symm
    rw [mem_build_ring_iff addr l hnd hn hky]
    right
    have hidx : leftIdx l.length (rightIdx l.length k) = k :=
      leftIdx_rightIdx hklt hn
    have hgl : l[leftIdx l.length (rightIdx l.length k)]? = some x := by
      rw [hidx, List.getElem?_eq_getElem hklt, hkv]
    exact (congrArg addr (get_eq_of_getElem?
      (leftIdx_lt (by omega) (rightIdx l.length k)) hgl)).symm
  · have hll : l.get ⟨leftIdx l.length k, leftIdx_lt (by omega) k⟩ ∈ l :=
      List.getElem_mem _
    have hyv : y = l.get ⟨leftIdx l.length k, leftIdx_lt (by omega) k⟩ :=
      hinj y hy _ hll hm
    have hky : l[leftIdx l.length k]? = some y := by
      rw [List.getElem?_eq_getElem (leftIdx_lt (by omega) k)]
      exact congrArg some hyv.symm
    rw [mem_build_ring_iff addr l hnd hn hky]
    left
    have hidx : rightIdx l.length (leftIdx l.length k) = k :=
      rightIdx_leftIdx hklt hn
    have hgl : l[rightIdx l.length (leftIdx l.length k)]? = some x := by
      rw [hidx, List.getElem?_eq_getElem hklt, hkv]
    exact (congrArg addr (get_eq_of_getElem?
      (rightIdx_lt (by omega) (leftIdx l.length k)) hgl)).symm

theorem ring_edge (addr : String → String) (l : List String)
    (hnd : l.Nodup) (hn : 2 ≤ l.length) {k j : Nat} {x y : String}
    (hk : l[k]? = some x) (hj : l[j]? = some y)
    (hrj : rightIdx l.length k = j) :
    addr y ∈ build_ring addr l l.length (fun _ => []) x := by
  rw [mem_build_ring_iff addr l hnd hn hk]
  left
  subst hrj
  exact (congrArg addr
    (get_eq_of_getElem? (rightIdx_lt (by omega) k) hj)).symm

/-! ### Claim C8: the topology contract -/

/-- C8: for every nonempty duplicate-free agent set with injective
addresses and every stream of random draws from the agent list, the
neighbor mapping built by `make_topology` is irreflexive and symmetric,
connected whenever there are at least two agents, and maps a single agent
to the empty neighbor set.  The PRNG behind the random extras is
abstracted as the universally quantified list `choices` of drawn pairs,
which covers every `phi` and `seed`. -/
theorem c8_topology_contract (proxies : List String) (addr : String → String)
    (choices : List (String × String)) (hne : proxies ≠ [])
    (hnd : proxies.Nodup)
    (hinj : ∀ a ∈ proxies, ∀ b ∈ proxies, addr a = addr b → a = b)
    (hch : ∀ p ∈ choices, p.1 ∈ proxies ∧ p.2 ∈ proxies) :
    (∀ a ∈ proxies, addr a ∉ make_topology proxies addr choices a) ∧
    (∀ a ∈ proxies, ∀ b ∈ proxies,
      (addr b ∈ make_topology proxies addr choices a ↔
        addr a ∈ make_topology proxies addr choices b)) ∧
    (2 ≤ proxies.length → ∀ a ∈ proxies, ∀ b ∈ proxies,
      Relation.ReflTransGen
        (fun u v => u ∈ proxies ∧ v ∈ proxies ∧
          addr v ∈ make_topology proxies addr choices u) a b) ∧
    (∀ a, proxies = [a] → make_topology proxies addr choices a = []) := by
  by_cases h1 : proxies.length = 1
  · have ht : ∀ x, make_topology proxies addr choices x = [] := by
      intro x
      simp [make_topology, h1]
    refine ⟨fun a _ => by rw [ht a]; simp,
      fun a _ b _ => by rw [ht a, ht b]; simp,
      fun h2 => absurd h1 (by omega),
      fun a _ => ht a⟩
  · have hlen0 : proxies.length ≠ 0 := fun h0 =>
      hne (List.length_eq_zero.mp h0)
    have hn2 : 2 ≤ proxies.length := by omega
    have hmt : make_topology proxies addr choices
        = add_random_topology addr choices
            (build_ring addr
              (List.insertionSort (fun a b => strLeB (addr a) (addr b) = true)
                proxies)
              proxies.length (fun _ => [])) := by
      simp [make_topology, h1]
    set l := List.insertionSort (fun a b => strLeB (addr a) (addr b) = true)
      proxies with hldef
    have hperm : l.Perm proxies := List.perm_insertionSort _ _
    have hlnd : l.Nodup := hperm.nodup_iff.mpr hnd
    have hllen : l.length = proxies.length := hperm.length_eq
    have hlmem : ∀ x : String, x ∈ l ↔ x ∈ proxies := fun x => hperm.mem_iff
    have hlinj : ∀ a ∈ l, ∀ b ∈ l, addr a = addr b → a = b :=
      fun a ha b hb => hinj a ((hlmem a).mp ha) b ((hlmem b).mp hb)
    have hlch : ∀ p ∈ choices, p.1 ∈ l ∧ p.2 ∈ l := fun p hp =>
      ⟨(hlmem _).mpr (hch p hp).1, (hlmem _).mpr (hch p hp).2⟩
    have hln2 : 2 ≤ l.length := by omega
    rw [← hllen] at hmt
    have part1 : ∀ a ∈ proxies,
        addr a ∉ make_topology proxies addr choices a := by
      intro a hpa
      rw [hmt]
      refine add_random_irrefl addr l hlinj choices _ hlch ?_ a
        ((hlmem a).mpr hpa)
      intro x hx
      obtain ⟨k, hk⟩ := List.mem_iff_getElem?.mp hx
      exact ring_irrefl addr l hlnd hln2 hlinj hk
    have hsymmbase : ∀ x ∈ l, ∀ y ∈ l,
        (addr y ∈ build_ring addr l l.length (fun _ => []) x ↔
          addr x ∈ build_ring addr l l.length (fun _ => []) y) := by
      intro x hx y hy
      constructor
      · intro hm
        obtain ⟨k, hk⟩ := List.mem_iff_getElem?.mp hx
        exact ring_symm addr l hlnd hln2 hlinj hk hy hm
      · intro hm
        obtain ⟨k, hk⟩ := List.mem_iff_getElem?.mp hy
        exact ring_symm addr l hlnd hln2 hlinj hk hx hm
    have part2 : ∀ a ∈ proxies, ∀ b ∈ proxies,
        (addr b ∈ make_topology proxies addr choices a ↔
          addr a ∈ make_topology proxies addr choices b) := by
      intro a hpa b hpb
      rw [hmt]
      exact add_random_symm addr l hlinj choices _ hlch hsymmbase
        a ((hlmem a).mpr hpa) b ((hlmem b).mpr hpb)
    refine ⟨part1, part2, ?_, ?_⟩
    · intro _ a hpa b hpb
      have hrelsymm : Symmetric (fun u v : String => u ∈ proxies ∧
          v ∈ proxies ∧ addr v ∈ make_topology proxies addr choices u) := by
        intro u v huv
        exact ⟨huv.2.1, huv.1, (part2 u huv.1 v huv.2.1).mp huv.2.2⟩
      have hedge : ∀ (k j : Nat) (x y : String), l[k]? = some x →
          l[j]? = some y → rightIdx l.length k = j →
          (x ∈ proxies ∧ y ∈ proxies ∧
            addr y ∈ make_topology proxies addr choices x) := by
        intro k j x y hk hj hrj
        have hxl : x ∈ l := List.mem_iff_getElem?.mpr ⟨k, hk⟩
        have hyl : y ∈ l := List.mem_iff_getElem?.mpr ⟨j, hj⟩
        refine ⟨(hlmem x).mp hxl, (hlmem y).mp hyl, ?_⟩
        rw [hmt]
        exact add_random_mono addr choices _ x (addr y)
          (ring_edge addr l hlnd hln2 hk hj hrj)
      have hreach : ∀ (j : Nat), j < l.length → ∀ (y : String),
          l[j]? = some y → ∀ (x : String), l[0]? = some x →
          Relation.ReflTransGen
            (fun u v : String => u ∈ proxies ∧ v ∈ proxies ∧
              addr v ∈ make_topology proxies addr choices u) x y := by
        intro j
        induction j with
        | zero =>
          intro _ y hy x hx
          rw [hy] at hx
          injection hx with hx
          rw [hx]
        | succ j ih =>
          intro hj y hy x hx
          have hjlt : j < l.length := by omega
          obtain ⟨z, hz⟩ : ∃ z, l[j]? = some z :=
            ⟨l.get ⟨j, hjlt⟩, List.getElem?_eq_getElem hjlt⟩
          exact Relation.ReflTransGen.tail (ih hjlt z hz x hx)
            (hedge j (j + 1) z y hz hy (rightIdx_eq_succ (by omega)))
      obtain ⟨i, hia⟩ := List.mem_iff_getElem?.mp ((hlmem a).mpr hpa)
      obtain ⟨j, hjb⟩ := List.mem_iff_getElem?.mp ((hlmem b).mpr hpb)
      have hilt : i < l.length := (List.getElem?_eq_some.mp hia).1
      have hjlt : j < l.length := (List.getElem?_eq_some.mp hjb).1
      have h0 : (0 : Nat) < l.length := by omega
      obtain ⟨x0, hx0⟩ : ∃ z, l[0]? = some z :=
        ⟨l.get ⟨0, h0⟩, List.getElem?_eq_getElem h0⟩
      exact Relation.ReflTransGen.trans
        ((Relation.ReflTransGen.symmetric hrelsymm)
          (hreach i hilt a hia x0 hx0))
        (hreach j hjlt b hjb x0 hx0)
    · intro a ha
      rw [ha] at h1
      exact absurd rfl h1

/-- Witness for C8 at a concrete three-agent instance with one extra
random draw. -/
theorem c8_topology_contract_witness :
    (fun p => if p = "p1" then "a1" else if p = "p2" then "a2" else "a3") "p1"
      ∉ make_topology ["p1", "p2", "p3"]
          (fun p => if p = "p1" then "a1" else if p = "p2" then "a2"
            else "a3")
          [("p1", "p3")] "p1" :=
  (c8_topology_contract ["p1", "p2", "p3"]
    (fun p => if p = "p1" then "a1" else if p = "p2" then "a2" else "a3")
    [("p1", "p3")] (by decide) (by decide) (by decide) (by decide)).1
    "p1" (by decide)

/-! ### Claim C3: orientation of the pairs in `topology_as_list` -/

theorem pairLeB_total : ∀ p q : String × String,
    pairLeB p q = true ∨ pairLeB q p = true := by
  intro p q
  cases hlt : strLtB p.1 q.1 with
  | true => exact Or.inl (by simp [pairLeB, hlt])
  | false =>
    cases hlt2 : strLtB q.1 p.1 with
    | true => exact Or.inr (by simp [pairLeB, hlt2])
    | false =>
      have he : p.1 = q.1 := strLtB_antisymm_eq hlt hlt2
      rcases strLeB_total p.2 q.2 with h | h
      · exact Or.inl (by simp [pairLeB, he, h])
      · exact Or.inr (by simp [pairLeB, he.symm, h])

theorem pairLeB_trans : ∀ p q r : String × String, pairLeB p q = true →
    pairLeB q r = true → pairLeB p r = true := by
  intro p q r h1 h2
  simp only [pairLeB, Bool.or_eq_true, Bool.and_eq_true, beq_iff_eq]
    at h1 h2 ⊢
  rcases h1 with h1 | ⟨he1, hl1⟩
  · rcases h2 with h2 | ⟨he2, _⟩
    · exact Or.inl (strLtB_trans h1 h2)
    · exact Or.inl (by rw [← he2]; exact h1)
  · rcases h2 with h2 | ⟨he2, hl2⟩
    · exact Or.inl (by rw [he1]; exact h2)
    · exact Or.inr ⟨he1.trans he2, strLeB_trans hl1 hl2⟩

instance : IsTotal (String × String) (fun a b => pairLeB a b = true) :=
  ⟨pairLeB_total⟩

instance : IsTrans (String × String) (fun a b => pairLeB a b = true) :=
  ⟨pairLeB_trans⟩

theorem mem_foldl_cons_canon (f : String → String × String) :
    ∀ (l : List String) (acc : List (String × String)) (x : String × String),
      (x ∈ l.foldl (fun acc2 o => f o :: acc2) acc ↔
        x ∈ acc ∨ ∃ o ∈ l, x = f o)
  | [], acc, x => by simp
  | o :: l, acc, x => by
    rw [List.foldl_cons, mem_foldl_cons_canon f l (f o :: acc) x]
    constructor
    · rintro (h | ⟨o', ho', he⟩)
      · rcases List.mem_cons.mp h with h | h
        · exact Or.inr ⟨o, List.mem_cons_self o l, h⟩
        · exact Or.inl h
      · exact Or.inr ⟨o', List.mem_cons_of_mem o ho', he⟩
    · rintro (h | ⟨o', ho', he⟩)
      · exact Or.inl (List.mem_cons_of_mem (f o) h)
      · rcases List.mem_cons.mp ho' with he' | ho'
        · subst he'
          exact Or.inl (he ▸ List.mem_cons_self (f o') acc)
        · exact Or.inr ⟨o', ho', he⟩

theorem mem_conn_fold (addr names : String → String)
    (t : String → List String) :
    ∀ (ps : List String) (acc : List (String × String))
      (x : String × String),
      (x ∈ ps.foldl
          (fun acc p => (t p).foldl
            (fun acc2 o => canonPair names (addr p) o :: acc2) acc) acc ↔
        x ∈ acc ∨ ∃ p ∈ ps, ∃ o ∈ t p, x = canonPair names (addr p) o)
  | [], acc, x => by simp
  | p :: ps, acc, x => by
    rw [List.foldl_cons, mem_conn_fold addr names t ps _ x,
      mem_foldl_cons_canon (canonPair names (addr p)) (t p) acc x]
    constructor
    · rintro ((h | ⟨o, ho, he⟩) | ⟨p', hp', o, ho, he⟩)
      · exact Or.inl h
      · exact Or.inr ⟨p, List.mem_cons_self p ps, o, ho, he⟩
      · exact Or.inr ⟨p', List.mem_cons_of_mem p hp', o, ho, he⟩
    · rintro (h | ⟨p', hp', o, ho, he⟩)
      · exact Or.inl (Or.inl h)
      · rcases List.mem_cons.mp hp' with he' | hp'
        · subst he'
          exact Or.inl (Or.inr ⟨o, ho, he⟩)
        · exact Or.inr ⟨p', hp', o, ho, he⟩

theorem mem_topology_as_list (proxies : List String)
    (addr names : String → String) (t : String → List String)
    (x : String × String) :
    x ∈ topology_as_list proxies addr t names ↔
      ∃ p ∈ proxies, ∃ o ∈ t p, x = canonPair names (addr p) o := by
  unfold topology_as_list
  rw [(List.perm_insertionSort _ _).mem_iff, List.mem_dedup,
    mem_conn_fold addr names t proxies [] x]
  simp

/-- C3 counterexample: a built two-agent topology whose addresses are
ordered oppositely to the names.  `topology_as_list` orients the pair by
the ADDRESSES (`a1 < a2`) and then maps to names, producing
`("zeta", "alpha")` with `"zeta" > "alpha"` — the claimed
name-lexicographic orientation does not hold. -/
theorem c3_counterexample_name_order :
    topology_as_list ["p1", "p2"]
        (fun p => if p = "p1" then "a1" else "a2")
        (make_topology ["p1", "p2"]
          (fun p => if p = "p1" then "a1" else "a2") [])
        (fun a => if a = "a1" then "zeta" else "alpha")
      = [("zeta", "alpha")] ∧
      strLtB "zeta" "alpha" = false ∧ strLtB "alpha" "zeta" = true := by
  decide

/-- C3 amended: `topology_as_list` returns the bidirectional edge set as
a sorted duplicate-free list of canonicalized tuples, where the
orientation within each pair is determined by comparing the two
ADDRESSES (see `canonPair`: `(names[addr_a], names[addr_b])` with
`addr_a < addr_b`), not the names; the list is sorted lexicographically
as Python sorts tuples of the resulting names. -/
theorem c3_topology_as_list_amended (proxies : List String)
    (addr names : String → String) (t : String → List String) :
    List.Sorted (fun a b => pairLeB a b = true)
        (topology_as_list proxies addr t names) ∧
      (topology_as_list proxies addr t names).Nodup ∧
      (∀ pr ∈ topology_as_list proxies addr t names,
        ∃ p ∈ proxies, ∃ o ∈ t p, pr = canonPair names (addr p) o) ∧
      (∀ p ∈ proxies, ∀ o ∈ t p,
        canonPair names (addr p) o ∈ topology_as_list proxies addr t names) := by
  refine ⟨?_, ?_, ?_, ?_⟩
  · exact List.sorted_insertionSort _ _
  · unfold topology_as_list
    rw [(List.perm_insertionSort _ _).nodup_iff]
    exact List.nodup_dedup _
  · intro pr hpr
    exact (mem_topology_as_list proxies addr names t pr).mp hpr
  · intro p hp o ho
    exact (mem_topology_as_list proxies addr names t
      (canonPair names (addr p) o)).mpr ⟨p, hp, o, ho, rfl⟩

/-- Witness for the amended C3 on the counterexample instance. -/
theorem c3_topology_as_list_amended_witness :
    canonPair (fun a => if a = "a1" then "zeta" else "alpha")
        ((fun p : String => if p = "p1" then "a1" else "a2") "p1") "a2"
      ∈ topology_as_list ["p1", "p2"]
          (fun p => if p = "p1" then "a1" else "a2")
          (make_topology ["p1", "p2"]
            (fun p => if p = "p1" then "a1" else "a2") [])
          (fun a => if a = "a1" then "zeta" else "alpha") :=
  (c3_topology_as_list_amended ["p1", "p2"]
      (fun p => if p = "p1" then "a1" else "a2")
      (fun a => if a = "a1" then "zeta" else "alpha")
      (make_topology ["p1", "p2"]
        (fun p => if p = "p1" then "a1" else "a2") [])).2.2.2
    "p1" (by decide) "a2" (by decide)

end Isaac
